import Mathlib

/-!
Verification of the streaming chat application (Cloudflare Worker backend
`src/index.ts` plus the browser frontend `public/chat.js`).

Strings are modelled as `List Char`.  Every definition below is a direct
shallow embedding of a function of the source; the source function is named
in each doc comment.
-/

set_option maxHeartbeats 1000000

/-- Convert a Lean string literal to the `List Char` representation. -/
def str (s : String) : List Char := s.toList

/-- The backtick character (written by code point to keep sources clean). -/
def bt : Char := Char.ofNat 96

/-- JavaScript's notion of whitespace as used by `trim`/`trimStart`
(WhiteSpace and LineTerminator code points). -/
def jsWs (c : Char) : Bool :=
  c = ' ' || c = '\t' || c = '\n' || c = '\r' || c = Char.ofNat 11 ||
  c = Char.ofNat 12 || c = Char.ofNat 160 || c = Char.ofNat 8232 ||
  c = Char.ofNat 8233 || c = Char.ofNat 65279

/-- JavaScript `String.prototype.trimStart`. -/
def jsTrimStart (s : List Char) : List Char := s.dropWhile jsWs

/-- JavaScript `String.prototype.trim` (both ends). -/
def jsTrim (s : List Char) : List Char :=
  ((s.dropWhile jsWs).reverse.dropWhile jsWs).reverse

/-! ## Frame codec: `consumeSseEvents` of `public/chat.js`

```js
function consumeSseEvents(buffer) {
  let normalized = buffer.replace(/\r/g, "");
  const events = [];
  let eventEndIndex;
  while ((eventEndIndex = normalized.indexOf("\n\n")) !== -1) {
    const rawEvent = normalized.slice(0, eventEndIndex);
    normalized = normalized.slice(eventEndIndex + 2);
    const lines = rawEvent.split("\n");
    const dataLines = [];
    for (const line of lines) {
      if (line.startsWith("data:")) {
        dataLines.push(line.slice("data:".length).trimStart());
      }
    }
    if (dataLines.length === 0) continue;
    events.push(dataLines.join("\n"));
  }
  return { events, buffer: normalized };
}
```
-/

/-- `buffer.replace(/\r/g, "")`. -/
def stripCR (s : List Char) : List Char := s.filter (fun c => c ≠ '\r')

/-- Index of the first occurrence of the frame delimiter `"\n\n"`
(JavaScript `normalized.indexOf("\n\n")`, `none` for `-1`). -/
def findDelim : List Char → Option Nat
  | [] => none
  | [_] => none
  | a :: b :: rest =>
    if a = '\n' ∧ b = '\n' then some 0
    else (findDelim (b :: rest)).map (· + 1)

/-- `rawEvent.split("\n")` (JavaScript split on a single newline). -/
def splitNl : List Char → List (List Char)
  | [] => [[]]
  | c :: rest =>
    let r := splitNl rest
    if c = '\n' then [] :: r else (c :: r.headI) :: r.tail

/-- The `dataLines` loop of `consumeSseEvents`: keep lines starting with
`data:`, strip the prefix and `trimStart()` the rest. -/
def dataLinesOf (raw : List Char) : List (List Char) :=
  ((splitNl raw).filter (fun l => (str "data:").isPrefixOf l)).map
    (fun l => jsTrimStart (l.drop 5))

/-- One delimited region's contribution: `none` when it has no data lines
(the `continue`), otherwise the data lines joined with `"\n"`. -/
def regionEvent (raw : List Char) : Option (List Char) :=
  let dl := dataLinesOf raw
  if dl = [] then none else some (List.intercalate ['\n'] dl)

theorem findDelim_bound : ∀ s i, findDelim s = some i → i + 2 ≤ s.length := by
  intro s
  induction s with
  | nil => intro i h; simp [findDelim] at h
  | cons c rest ih =>
    intro i h
    cases rest with
    | nil => simp [findDelim] at h
    | cons b t =>
      rw [findDelim] at h
      split at h
      · cases h; simp
      · simp only [Option.map_eq_some'] at h
        obtain ⟨j, hj, rfl⟩ := h
        have := ih j hj
        simp at this ⊢
        omega

/-- The `while` loop of `consumeSseEvents`, acting on the normalized string.
The `fuel` argument only drives the structural recursion; it is irrelevant
as soon as it dominates the string length (`sseLoopF_irrel`). -/
def sseLoopF : Nat → List Char → List (List Char) × List Char
  | 0, s => ([], s)
  | fuel + 1, s =>
    match findDelim s with
    | none => ([], s)
    | some i =>
      let res := sseLoopF fuel (s.drop (i + 2))
      match regionEvent (s.take i) with
      | some e => (e :: res.1, res.2)
      | none => res

/-- The `while` loop of `consumeSseEvents`. -/
def sseLoop (s : List Char) : List (List Char) × List Char := sseLoopF s.length s

theorem sseLoopF_irrel : ∀ f₁ f₂ s, s.length ≤ f₁ → s.length ≤ f₂ →
    sseLoopF f₁ s = sseLoopF f₂ s := by
  intro f₁
  induction f₁ using Nat.strong_induction_on with
  | _ f₁ ih =>
    intro f₂ s h₁ h₂
    match f₁, f₂ with
    | 0, 0 => rfl
    | 0, f₂ + 1 =>
      have : s = [] := List.eq_nil_of_length_eq_zero (Nat.le_zero.mp h₁)
      subst this; simp [sseLoopF, findDelim]
    | f₁ + 1, 0 =>
      have : s = [] := List.eq_nil_of_length_eq_zero (Nat.le_zero.mp h₂)
      subst this; simp [sseLoopF, findDelim]
    | f₁ + 1, f₂ + 1 =>
      simp only [sseLoopF]
      cases hd : findDelim s with
      | none => rfl
      | some i =>
        have hb := findDelim_bound s i hd
        have hlen : (s.drop (i + 2)).length ≤ f₁ := by
          simp [List.length_drop]; omega
        have hlen' : (s.drop (i + 2)).length ≤ f₂ := by
          simp [List.length_drop]; omega
        simp only [ih f₁ (Nat.lt_succ_self _) f₂ _ hlen hlen']

theorem sseLoop_eq (s : List Char) :
    sseLoop s =
      match findDelim s with
      | none => ([], s)
      | some i =>
        let res := sseLoop (s.drop (i + 2))
        match regionEvent (s.take i) with
        | some e => (e :: res.1, res.2)
        | none => res := by
  unfold sseLoop
  cases hl : s.length with
  | zero =>
    have : s = [] := List.eq_nil_of_length_eq_zero hl
    subst this; simp [sseLoopF, findDelim]
  | succ n =>
    simp only [sseLoopF]
    cases hd : findDelim s with
    | none => rfl
    | some i =>
      have hb := findDelim_bound s i hd
      have : (s.drop (i + 2)).length ≤ n := by simp [List.length_drop]; omega
      simp only [sseLoopF_irrel n (s.drop (i + 2)).length _ this (Nat.le_refl _)]

/-- `consumeSseEvents` of `public/chat.js`. -/
def consumeSseEvents (buffer : List Char) : List (List Char) × List Char :=
  sseLoop (stripCR buffer)

example : consumeSseEvents (str "data: a\n\ndata") = ([str "a"], str "data") := by decide
example : consumeSseEvents (str "data:  hi\n\n") = ([str "hi"], []) := by decide

/-! ## Chunk-boundary independence of the decoder (C2) -/

theorem take_append_le {α : Type} : ∀ (n : Nat) (a b : List α), n ≤ a.length →
    (a ++ b).take n = a.take n := by
  intro n
  induction n with
  | zero => intro a b _; simp
  | succ m ih =>
    intro a b h
    cases a with
    | nil => simp at h
    | cons x xs => simp only [List.cons_append, List.take_succ_cons]
                   rw [ih xs b (by simpa using h)]

theorem drop_append_le {α : Type} : ∀ (n : Nat) (a b : List α), n ≤ a.length →
    (a ++ b).drop n = a.drop n ++ b := by
  intro n
  induction n with
  | zero => intro a b _; simp
  | succ m ih =>
    intro a b h
    cases a with
    | nil => simp at h
    | cons x xs => simp only [List.cons_append, List.drop_succ_cons]
                   exact ih xs b (by simpa using h)

theorem findDelim_append_some : ∀ (a b : List Char) (i : Nat),
    findDelim a = some i → findDelim (a ++ b) = some i := by
  intro a
  induction a with
  | nil => intro b i h; simp [findDelim] at h
  | cons c rest ih =>
    intro b i h
    cases rest with
    | nil => simp [findDelim] at h
    | cons d t =>
      rw [findDelim] at h
      simp only [List.cons_append]
      rw [findDelim]
      split at h
      · cases h
        simp_all
      · rename_i hne
        simp only [hne, if_false]
        simp only [Option.map_eq_some'] at h
        obtain ⟨j, hj, rfl⟩ := h
        have := ih b j hj
        rw [List.cons_append] at this
        rw [this]
        rfl

/-- Decoding a concatenation equals decoding the first part and then feeding
the remainder, prefixed to the second part, back into the loop. -/
theorem sseLoop_append (a b : List Char) :
    sseLoop (a ++ b) =
      ((sseLoop a).1 ++ (sseLoop ((sseLoop a).2 ++ b)).1,
       (sseLoop ((sseLoop a).2 ++ b)).2) := by
  generalize hn : a.length = n
  induction n using Nat.strong_induction_on generalizing a with
  | _ n ih =>
    rw [sseLoop_eq a]
    cases hd : findDelim a with
    | none => simp
    | some i =>
      have hb := findDelim_bound a i hd
      have hd' := findDelim_append_some a b i hd
      rw [sseLoop_eq (a ++ b)]
      simp only [hd', hd]
      rw [take_append_le i a b (by omega), drop_append_le (i + 2) a b (by omega)]
      have hlt : (a.drop (i + 2)).length < n := by
        simp [List.length_drop]; omega
      have := ih (a.drop (i + 2)).length (by rw [← hn] at hlt ⊢; exact hlt) (a.drop (i + 2)) rfl
      cases hre : regionEvent (a.take i) with
      | some e => simp only [hre, this, List.cons_append]
      | none => simp only [hre, this]

theorem findDelim_sseLoop_remainder (s : List Char) :
    findDelim (sseLoop s).2 = none := by
  generalize hn : s.length = n
  induction n using Nat.strong_induction_on generalizing s with
  | _ n ih =>
    rw [sseLoop_eq s]
    cases hd : findDelim s with
    | none => simpa using hd
    | some i =>
      have hb := findDelim_bound s i hd
      have hlt : (s.drop (i + 2)).length < n := by
        simp [List.length_drop]; omega
      have := ih (s.drop (i + 2)).length (by rw [← hn] at hlt ⊢; exact hlt) (s.drop (i + 2)) rfl
      cases hre : regionEvent (s.take i) with
      | some e => simpa [hre] using this
      | none => simpa [hre] using this

theorem not_cr_sseLoop_remainder (s : List Char) (h : '\r' ∉ s) :
    '\r' ∉ (sseLoop s).2 := by
  generalize hn : s.length = n
  induction n using Nat.strong_induction_on generalizing s with
  | _ n ih =>
    rw [sseLoop_eq s]
    cases hd : findDelim s with
    | none => simpa using h
    | some i =>
      have hb := findDelim_bound s i hd
      have hlt : (s.drop (i + 2)).length < n := by
        simp [List.length_drop]; omega
      have hmem : '\r' ∉ s.drop (i + 2) := fun hc => h (List.mem_of_mem_drop hc)
      have := ih (s.drop (i + 2)).length (by rw [← hn] at hlt ⊢; exact hlt) (s.drop (i + 2)) hmem rfl
      cases hre : regionEvent (s.take i) with
      | some e => simpa [hre] using this
      | none => simpa [hre] using this

theorem not_cr_stripCR (s : List Char) : '\r' ∉ stripCR s := by
  intro h
  simp [stripCR, List.mem_filter] at h

theorem stripCR_of_not_cr (s : List Char) (h : '\r' ∉ s) : stripCR s = s := by
  simp only [stripCR]
  apply List.filter_eq_self.mpr
  intro a ha
  simp
  exact fun hc => h (hc ▸ ha)

theorem stripCR_append (a b : List Char) :
    stripCR (a ++ b) = stripCR a ++ stripCR b := by
  simp [stripCR, List.filter_append]

/-- One iteration of the client's chunk loop: decode the carried-over
remainder prefixed to the newly arrived chunk, appending the decoded events
(`buffer += decoder.decode(value); parsed = consumeSseEvents(buffer);
buffer = parsed.buffer` in `sendMessage`). -/
def chunkStep (acc : List (List Char) × List Char) (ch : List Char) :
    List (List Char) × List Char :=
  let r := consumeSseEvents (acc.2 ++ ch)
  (acc.1 ++ r.1, r.2)

theorem chunkFold_gen : ∀ (chunks : List (List Char)) (acc : List (List Char))
    (buf : List Char), '\r' ∉ buf → findDelim buf = none →
    chunks.foldl chunkStep (acc, buf) =
      (acc ++ (sseLoop (buf ++ stripCR chunks.flatten)).1,
       (sseLoop (buf ++ stripCR chunks.flatten)).2) := by
  intro chunks
  induction chunks with
  | nil =>
    intro acc buf hcr hfd
    have h0 : sseLoop buf = ([], buf) := by rw [sseLoop_eq, hfd]
    simp [stripCR, h0]
  | cons ch rest ih =>
    intro acc buf hcr hfd
    have hbufeq : stripCR (buf ++ ch) = buf ++ stripCR ch := by
      rw [stripCR_append, stripCR_of_not_cr buf hcr]
    have hstep : chunkStep (acc, buf) ch =
        (acc ++ (sseLoop (buf ++ stripCR ch)).1, (sseLoop (buf ++ stripCR ch)).2) := by
      simp [chunkStep, consumeSseEvents, hbufeq]
    have hRcr : '\r' ∉ (sseLoop (buf ++ stripCR ch)).2 := by
      rw [← hbufeq]
      exact not_cr_sseLoop_remainder _ (not_cr_stripCR _)
    have hRfd : findDelim (sseLoop (buf ++ stripCR ch)).2 = none :=
      findDelim_sseLoop_remainder _
    rw [List.foldl_cons, hstep, ih _ _ hRcr hRfd]
    have hjoin : stripCR (ch :: rest).flatten = stripCR ch ++ stripCR rest.flatten := by
      simp [List.flatten, stripCR_append]
    rw [hjoin, ← List.append_assoc]
    rw [sseLoop_append (buf ++ stripCR ch) (stripCR rest.flatten)]
    simp

/-- C2.  Frame decoding is chunk-boundary independent: feeding the chunks one
at a time through `consumeSseEvents`, always prefixing the previous call's
remainder, yields exactly the events and the final remainder of a single
`consumeSseEvents` call on the whole string. -/
theorem C2_chunk_boundary_independence (chunks : List (List Char)) :
    chunks.foldl chunkStep ([], []) = consumeSseEvents chunks.flatten := by
  have := chunkFold_gen chunks [] [] (by simp) (by simp [findDelim])
  simpa [consumeSseEvents] using this

/-! ## Frame payload parsing (`JSON.parse` on protocol frames)

The wire protocol's payloads are flat JSON objects with string values
(`{"tone": ..., "thinking"?: ..., "response"?: ...}`, spec section 3), so
`JSON.parse` is modelled by a recursive-descent parser for exactly that
grammar: an object of string-keyed string members with standard JSON string
escapes; anything else (including trailing garbage) fails, matching the
`try { JSON.parse(data) } catch` skip path of `sendMessage`. -/

/-- `{` (written by code point). -/
def lbc : Char := Char.ofNat 123

/-- `}` (written by code point). -/
def rbc : Char := Char.ofNat 125

/-- JSON insignificant whitespace. -/
def jsonWsChar (c : Char) : Bool := c = ' ' || c = '\t' || c = '\n' || c = '\r'

def skipWs (s : List Char) : List Char := s.dropWhile jsonWsChar

def hexVal (c : Char) : Option Nat :=
  if '0' ≤ c ∧ c ≤ '9' then some (c.toNat - 48)
  else if 'a' ≤ c ∧ c ≤ 'f' then some (c.toNat - 87)
  else if 'A' ≤ c ∧ c ≤ 'F' then some (c.toNat - 55)
  else none

def escChar (c : Char) : Option Char :=
  if c = '"' then some '"'
  else if c = '\\' then some '\\'
  else if c = '/' then some '/'
  else if c = 'b' then some (Char.ofNat 8)
  else if c = 'f' then some (Char.ofNat 12)
  else if c = 'n' then some '\n'
  else if c = 'r' then some '\r'
  else if c = 't' then some '\t'
  else none

/-- Body of a JSON string (after the opening quote): returns the decoded
value and the remainder after the closing quote. -/
def parseJStrBody : List Char → Option (List Char × List Char)
  | [] => none
  | '"' :: rest => some ([], rest)
  | '\\' :: 'u' :: h1 :: h2 :: h3 :: h4 :: rest =>
    match hexVal h1, hexVal h2, hexVal h3, hexVal h4 with
    | some a, some b, some c, some d =>
      (parseJStrBody rest).map
        (fun r => (Char.ofNat (a * 4096 + b * 256 + c * 16 + d) :: r.1, r.2))
    | _, _, _, _ => none
  | '\\' :: e :: rest =>
    match escChar e with
    | some c => (parseJStrBody rest).map (fun r => (c :: r.1, r.2))
    | none => none
  | c :: rest =>
    if c.toNat < 32 then none
    else (parseJStrBody rest).map (fun r => (c :: r.1, r.2))

/-- A JSON string literal starting at the current position. -/
def parseJStr : List Char → Option (List Char × List Char)
  | '"' :: rest => parseJStrBody rest
  | _ => none

/-- One `"key": "value"` member. -/
def parseMember (s : List Char) : Option ((List Char × List Char) × List Char) :=
  match parseJStr s with
  | some (k, r1) =>
    match skipWs r1 with
    | ':' :: r2 =>
      match parseJStr (skipWs r2) with
      | some (v, r3) => some ((k, v), r3)
      | none => none
    | _ => none
  | none => none

/-- The member list of an object; fuel-driven recursion (each member consumes
at least one character, so `s.length` fuel suffices). -/
def parseMembersF : Nat → List Char → Option (List (List Char × List Char) × List Char)
  | 0, _ => none
  | fuel + 1, s =>
    match parseMember s with
    | none => none
    | some (kv, r) =>
      match skipWs r with
      | c :: r2 =>
        if c = ',' then
          (parseMembersF fuel (skipWs r2)).map (fun l => (kv :: l.1, l.2))
        else if c = rbc then some ([kv], r2)
        else none
      | [] => none

/-- `JSON.parse` on a flat string-valued object; fails on any other input. -/
def jsonParseFlat (s : List Char) : Option (List (List Char × List Char)) :=
  match skipWs s with
  | c :: r1 =>
    if c = lbc then
      match skipWs r1 with
      | c2 :: r2 =>
        if c2 = rbc then (if skipWs r2 = [] then some [] else none)
        else
          match parseMembersF s.length (skipWs r1) with
          | some (kvs, rest) => if skipWs rest = [] then some kvs else none
          | none => none
      | [] => none
    else none
  | [] => none

/-- A decoded protocol frame as the client reads it
(`jsonData.tone`, `jsonData.thinking`, `jsonData.response`). -/
structure Frame where
  tone : Option (List Char)
  thinking : Option (List Char)
  response : Option (List Char)
deriving DecidableEq

/-- Property access on the parsed object; later duplicate keys win, as in
JavaScript object semantics. -/
def lastVal (kvs : List (List Char × List Char)) (k : List Char) : Option (List Char) :=
  (kvs.reverse.find? (fun kv => kv.1 = k)).map (fun kv => kv.2)

def parseFrame (s : List Char) : Option Frame :=
  (jsonParseFlat s).map (fun kvs =>
    { tone := lastVal kvs (str "tone")
      thinking := lastVal kvs (str "thinking")
      response := lastVal kvs (str "response") })

example : parseFrame (str "\x7b\"tone\":\"rude\",\"response\":\"hi\"\x7d") =
    some { tone := some (str "rude"), thinking := none, response := some (str "hi") } := by
  decide
example : parseFrame (str "\x7bnot json") = none := by decide
example : parseFrame (str "[DONE]") = none := by decide

/-! ## Client demultiplexer: per-tone buffers and event routing

Models the streaming loop of `sendMessage` in `public/chat.js`: for each
decoded payload, stop at `[DONE]`, otherwise `JSON.parse`; on failure skip
the event; route by `jsonData.tone` (skipped when falsy or not one of the
three known tones); append truthy `thinking`/`response` fragments to the
tone's accumulators. -/

/-- One tone's accumulators (`thinkingText`, `responseText` in
`responseElements[tone]`). -/
structure ToneBuf where
  thinkingText : List Char
  responseText : List Char
deriving DecidableEq

/-- The three per-tone buffers created by `sendMessage`. -/
structure ClientState where
  friendly : ToneBuf
  rude : ToneBuf
  professional : ToneBuf
deriving DecidableEq

def initToneBuf : ToneBuf := { thinkingText := [], responseText := [] }

def initClientState : ClientState :=
  { friendly := initToneBuf, rude := initToneBuf, professional := initToneBuf }

/-- The fixed tones (`const tones = ['friendly', 'rude', 'professional']`). -/
def tones : List (List Char) := [str "friendly", str "rude", str "professional"]

def getBuf (st : ClientState) (t : List Char) : ToneBuf :=
  if t = str "friendly" then st.friendly
  else if t = str "rude" then st.rude
  else st.professional

def setBuf (st : ClientState) (t : List Char) (b : ToneBuf) : ClientState :=
  if t = str "friendly" then { st with friendly := b }
  else if t = str "rude" then { st with rude := b }
  else { st with professional := b }

/-- Routing of one decoded payload (`const jsonData = JSON.parse(data); ...`).
`if (!tone || !responseElements[tone]) continue;` then truthy `thinking` and
`response` fragments are appended. -/
def stepEvent (st : ClientState) (d : List Char) : ClientState :=
  match parseFrame d with
  | none => st
  | some f =>
    match f.tone with
    | none => st
    | some t =>
      if t = [] then st
      else if t ∈ tones then
        let b := getBuf st t
        let b1 :=
          match f.thinking with
          | some th => if th = [] then b else { b with thinkingText := b.thinkingText ++ th }
          | none => b
        let b2 :=
          match f.response with
          | some rp => if rp = [] then b1 else { b1 with responseText := b1.responseText ++ rp }
          | none => b1
        setBuf st t b2
      else st

/-- The terminal sentinel payload. -/
def doneStr : List Char := str "[DONE]"

/-- Process the stream of decoded payloads in arrival order, stopping at the
first `[DONE]` (the `break` in both loops of `sendMessage`). -/
def runPayloads : ClientState → List (List Char) → ClientState
  | st, [] => st
  | st, d :: rest => if d = doneStr then st else runPayloads (stepEvent st d) rest

/-- The `response` fragments a frame list contributes to tone `t`, in order. -/
def responseFragsFor (t : List Char) (payloads : List (List Char)) : List Char :=
  ((((payloads.takeWhile (fun d => d ≠ doneStr)).filterMap parseFrame).filter
    (fun f => f.tone = some t)).filterMap (fun f => f.response)).flatten

theorem tones_elim (t : List Char) (ht : t ∈ tones) :
    t = str "friendly" ∨ t = str "rude" ∨ t = str "professional" := by
  simpa [tones] using ht

theorem tones_ne_nil (t : List Char) (ht : t ∈ tones) : t ≠ [] := by
  rcases tones_elim t ht with rfl | rfl | rfl <;> simp [str]

theorem getBuf_setBuf_same (st : ClientState) (t : List Char) (b : ToneBuf)
    (ht : t ∈ tones) : getBuf (setBuf st t b) t = b := by
  rcases tones_elim t ht with rfl | rfl | rfl <;> simp [getBuf, setBuf, str]

theorem getBuf_setBuf_ne (st : ClientState) (t u : List Char) (b : ToneBuf)
    (ht : t ∈ tones) (hu : u ∈ tones) (hne : u ≠ t) :
    getBuf (setBuf st t b) u = getBuf st u := by
  rcases tones_elim t ht with rfl | rfl | rfl <;>
    rcases tones_elim u hu with rfl | rfl | rfl <;>
      simp_all [getBuf, setBuf, str]

/-- The `response` fragment one decoded payload contributes to tone `t`. -/
def fragOf (t : List Char) (d : List Char) : List Char :=
  match parseFrame d with
  | some f => if f.tone = some t then (f.response.getD []) else []
  | none => []

theorem stepEvent_responseText (st : ClientState) (d t : List Char)
    (ht : t ∈ tones) :
    (getBuf (stepEvent st d) t).responseText =
      (getBuf st t).responseText ++ fragOf t d := by
  unfold stepEvent fragOf
  cases hp : parseFrame d with
  | none => simp
  | some f =>
    cases hto : f.tone with
    | none => simp [hto]
    | some u =>
      simp only [hto]
      by_cases hu : u = []
      · subst hu
        have hne : (some ([] : List Char) = some t) = False := by
          simp; intro hc; exact tones_ne_nil _ ht hc
        simp [hne]
      · by_cases hmem : u ∈ tones
        · by_cases hut : u = t
          · subst hut
            simp only [hu, if_false, hmem, if_true, if_pos rfl]
            rw [getBuf_setBuf_same _ _ _ hmem]
            cases hr : f.response with
            | none =>
              cases hth : f.thinking with
              | none => simp
              | some th => by_cases hths : th = [] <;> simp [hths]
            | some rp =>
              by_cases hrp : rp = []
              · subst hrp
                cases hth : f.thinking with
                | none => simp
                | some th => by_cases hths : th = [] <;> simp [hths]
              · cases hth : f.thinking with
                | none => simp [hrp]
                | some th => by_cases hths : th = [] <;> simp [hths, hrp]
          · have hne : (some u = some t) = False := by
              simp; exact hut
            simp only [hu, if_false, hmem, if_true, hne]
            rw [getBuf_setBuf_ne _ _ _ _ hmem ht (fun hc => hut hc.symm)]
            simp
        · have hne : (some u = some t) = False := by
            simp; intro hc; exact hmem (hc ▸ ht)
          simp [hu, hmem, hne]

theorem runPayloads_responseText (payloads : List (List Char)) :
    ∀ (st : ClientState) (t : List Char), t ∈ tones →
    (getBuf (runPayloads st payloads) t).responseText =
      (getBuf st t).responseText ++
        ((payloads.takeWhile (fun d => d ≠ doneStr)).map (fragOf t)).flatten := by
  induction payloads with
  | nil => intro st t ht; simp [runPayloads]
  | cons d rest ih =>
    intro st t ht
    by_cases hd : d = doneStr
    · subst hd; simp [runPayloads]
    · rw [runPayloads]
      simp only [hd, if_false]
      rw [ih _ t ht, stepEvent_responseText _ _ _ ht]
      have : (d :: rest).takeWhile (fun x => x ≠ doneStr) =
          d :: rest.takeWhile (fun x => x ≠ doneStr) := by
        simp [List.takeWhile_cons, hd]
      rw [this]
      simp [List.append_assoc]

theorem responseFragsFor_eq_flatten (t : List Char) (payloads : List (List Char)) :
    responseFragsFor t payloads =
      ((payloads.takeWhile (fun d => d ≠ doneStr)).map (fragOf t)).flatten := by
  unfold responseFragsFor
  generalize payloads.takeWhile (fun d => d ≠ doneStr) = l
  induction l with
  | nil => simp
  | cons d rest ih =>
    simp only [List.filterMap, List.map]
    cases hp : parseFrame d with
    | none => simpa [fragOf, hp] using ih
    | some f =>
      by_cases hto : f.tone = some t
      · cases hr : f.response with
        | none => simp [fragOf, hp, hto, hr, List.filter, ih]
        | some rp => simp [fragOf, hp, hto, hr, List.filter, ih]
      · simp [fragOf, hp, hto, List.filter, ih]

/-- C3.  After full stream completion a variant's `responseText` equals the
concatenation, in arrival order, of every `response` fragment of every
well-formed decoded frame whose `tone` field names that variant; fragments
with an unknown or absent tone contribute nothing. -/
theorem C3_responseText_concat (payloads : List (List Char)) (t : List Char)
    (ht : t ∈ tones) :
    (getBuf (runPayloads initClientState payloads) t).responseText =
      responseFragsFor t payloads := by
  rw [responseFragsFor_eq_flatten, runPayloads_responseText payloads initClientState t ht]
  rcases tones_elim t ht with rfl | rfl | rfl <;>
    simp [getBuf, initClientState, initToneBuf, str]

/-- Witness for C3 at a concrete stream: two frames for `rude` around one for
`friendly`; the rude accumulator is exactly the in-order concatenation. -/
theorem C3_responseText_concat_witness :
    (str "rude" ∈ tones) ∧
    (getBuf (runPayloads initClientState
        [str "\x7b\"tone\":\"rude\",\"response\":\"Hel\"\x7d",
         str "\x7b\"tone\":\"friendly\",\"response\":\"Hi\"\x7d",
         str "\x7b\"tone\":\"rude\",\"response\":\"lo\"\x7d"]) (str "rude")).responseText =
      responseFragsFor (str "rude")
        [str "\x7b\"tone\":\"rude\",\"response\":\"Hel\"\x7d",
         str "\x7b\"tone\":\"friendly\",\"response\":\"Hi\"\x7d",
         str "\x7b\"tone\":\"rude\",\"response\":\"lo\"\x7d"] :=
  ⟨by decide, C3_responseText_concat _ _ (by decide)⟩

/-- C8.  A payload that fails JSON parsing is skipped and only it: the run
over `pre ++ [bad] ++ post` ends in exactly the state of the run over
`pre ++ post`, so every well-formed frame before and after the malformed one
is still parsed and routed. -/
theorem C8_malformed_frame_skipped (pre post : List (List Char)) (bad : List Char)
    (st : ClientState) (hbad : parseFrame bad = none) (hnd : bad ≠ doneStr) :
    runPayloads st (pre ++ bad :: post) = runPayloads st (pre ++ post) := by
  induction pre generalizing st with
  | nil =>
    simp only [List.nil_append]
    rw [runPayloads]
    simp only [hnd, if_false]
    have : stepEvent st bad = st := by simp [stepEvent, hbad]
    rw [this]
  | cons p rest ih =>
    simp only [List.cons_append]
    rw [runPayloads, runPayloads]
    by_cases hp : p = doneStr
    · simp [hp]
    · simp only [hp, if_false]
      exact ih _

/-- Witness for C8: `data: {not json` between two well-formed frames; the
final state equals the run without it, and both surrounding fragments are in
the rude buffer. -/
theorem C8_malformed_frame_skipped_witness :
    (parseFrame (str "\x7bnot json") = none ∧ str "\x7bnot json" ≠ doneStr) ∧
    runPayloads initClientState
        [str "\x7b\"tone\":\"rude\",\"response\":\"a\"\x7d", str "\x7bnot json",
         str "\x7b\"tone\":\"rude\",\"response\":\"b\"\x7d"] =
      runPayloads initClientState
        [str "\x7b\"tone\":\"rude\",\"response\":\"a\"\x7d",
         str "\x7b\"tone\":\"rude\",\"response\":\"b\"\x7d"] :=
  ⟨⟨by decide, by decide⟩,
    C8_malformed_frame_skipped
      [str "\x7b\"tone\":\"rude\",\"response\":\"a\"\x7d"]
      [str "\x7b\"tone\":\"rude\",\"response\":\"b\"\x7d"]
      (str "\x7bnot json") initClientState (by decide) (by decide)⟩

/-! ## Backend request handler (`handleChatRequest` of `src/index.ts`) -/

/-- JSON string escaping performed by `JSON.stringify` on string values. -/
def jsonEscapeChar (c : Char) : List Char :=
  if c = '"' then ['\\', '"']
  else if c = '\\' then ['\\', '\\']
  else if c = Char.ofNat 8 then ['\\', 'b']
  else if c = '\t' then ['\\', 't']
  else if c = '\n' then ['\\', 'n']
  else if c = Char.ofNat 12 then ['\\', 'f']
  else if c = '\r' then ['\\', 'r']
  else if c.toNat < 32 then
    ['\\', 'u', '0', '0',
     (str "0123456789abcdef").getD (c.toNat / 16) '0',
     (str "0123456789abcdef").getD (c.toNat % 16) '0']
  else [c]

def jsonEscape (s : List Char) : List Char := (s.map jsonEscapeChar).flatten

/-- A JSON string literal, as `JSON.stringify` renders one. -/
def jsonQuote (s : List Char) : List Char := '"' :: jsonEscape s ++ ['"']

/-- `JSON.stringify({ error: msg })`. -/
def jsonError (msg : List Char) : List Char :=
  lbc :: (jsonQuote (str "error") ++ [':'] ++ jsonQuote msg) ++ [rbc]

/-- `JSON.stringify({ tone, thinking })` / `JSON.stringify({ tone, response })`:
object-literal key order is `tone` first, then the fragment key. -/
def jsonToneKV (tone key v : List Char) : List Char :=
  lbc :: (jsonQuote (str "tone") ++ [':'] ++ jsonQuote tone ++ [','] ++
    jsonQuote key ++ [':'] ++ jsonQuote v) ++ [rbc]

/-- An SSE frame `data: <payload>\n\n` as the backend writes it. -/
def sseData (payload : List Char) : List Char :=
  str "data: " ++ payload ++ str "\n\n"

/-- The terminal sentinel frame `data: [DONE]\n\n` of the claim. -/
def sentinelFrame : List Char := sseData doneStr

/-- One upstream streaming chunk's delta, as the backend reads it:
`delta?.reasoning_content || ""` and `delta?.content || ""`
(absent fields modelled by the empty string the `||` produces). -/
structure Delta where
  reasoning : List Char
  content : List Char
deriving DecidableEq

/-- The frames the backend's per-stream loop enqueues for one chunk. -/
def framesOfDelta (tone : List Char) (d : Delta) : List (List Char) :=
  (if d.reasoning ≠ [] then [sseData (jsonToneKV tone (str "thinking") d.reasoning)] else []) ++
  (if d.content ≠ [] then [sseData (jsonToneKV tone (str "response") d.content)] else [])

/-- All frames one upstream stream contributes, in upstream order. -/
def serverFrames (tone : List Char) (ds : List Delta) : List (List Char) :=
  (ds.map (framesOfDelta tone)).flatten

/-- Arrival-order merges of the three per-tone frame sequences onto the single
outbound channel (`Promise.all` over the three `for await` loops: any
interleaving that preserves each stream's order). -/
inductive Interleave3 : List (List Char) → List (List Char) → List (List Char) →
    List (List Char) → Prop
  | nil : Interleave3 [] [] [] []
  | left {a as bs cs out} : Interleave3 as bs cs out →
      Interleave3 (a :: as) bs cs (a :: out)
  | mid {b as bs cs out} : Interleave3 as bs cs out →
      Interleave3 as (b :: bs) cs (b :: out)
  | right {c as bs cs out} : Interleave3 as bs cs out →
      Interleave3 as bs (c :: cs) (c :: out)

theorem interleave3_mem {as bs cs out : List (List Char)} (h : Interleave3 as bs cs out) :
    ∀ x ∈ out, x ∈ as ∨ x ∈ bs ∨ x ∈ cs := by
  induction h with
  | nil => intro x hx; cases hx
  | left _ ih =>
    intro x hx
    rcases List.mem_cons.mp hx with rfl | hx
    · exact Or.inl (List.mem_cons_self _ _)
    · rcases ih x hx with h | h | h
      · exact Or.inl (List.mem_cons_of_mem _ h)
      · exact Or.inr (Or.inl h)
      · exact Or.inr (Or.inr h)
  | mid _ ih =>
    intro x hx
    rcases List.mem_cons.mp hx with rfl | hx
    · exact Or.inr (Or.inl (List.mem_cons_self _ _))
    · rcases ih x hx with h | h | h
      · exact Or.inl h
      · exact Or.inr (Or.inl (List.mem_cons_of_mem _ h))
      · exact Or.inr (Or.inr h)
  | right _ ih =>
    intro x hx
    rcases List.mem_cons.mp hx with rfl | hx
    · exact Or.inr (Or.inr (List.mem_cons_self _ _))
    · rcases ih x hx with h | h | h
      · exact Or.inl h
      · exact Or.inr (Or.inl h)
      · exact Or.inr (Or.inr (List.mem_cons_of_mem _ h))

theorem sseData_json_ne_sentinel (t k v : List Char) :
    sseData (jsonToneKV t k v) ≠ sentinelFrame := by
  intro hc
  have hd : str "data: " = ['d', 'a', 't', 'a', ':', ' '] := by decide
  have hs : str "[DONE]" = ['[', 'D', 'O', 'N', 'E', ']'] := by decide
  simp only [sseData, sentinelFrame, doneStr, jsonToneKV, hd, hs] at hc
  simp only [List.cons_append, List.nil_append] at hc
  have h7 := congrArg (fun l => l.getD 6 ' ') hc
  simp only [List.getD, List.get?, Option.getD_some] at h7
  exact absurd h7 (by decide)

theorem serverFrame_ne_sentinel (tone : List Char) (ds : List Delta) :
    ∀ x ∈ serverFrames tone ds, x ≠ sentinelFrame := by
  intro x hx
  simp only [serverFrames, List.mem_flatten, List.mem_map] at hx
  obtain ⟨l, ⟨d, _, rfl⟩, hxl⟩ := hx
  simp only [framesOfDelta, List.mem_append] at hxl
  rcases hxl with h | h
  · split at h
    · rcases List.mem_singleton.mp h with rfl
      exact sseData_json_ne_sentinel _ _ _
    · cases h
  · split at h
    · rcases List.mem_singleton.mp h with rfl
      exact sseData_json_ne_sentinel _ _ _
    · cases h

/-- C1 (amended).  The multiplexer never emits the terminal sentinel frame:
whatever the arrival-order interleaving of the three upstream streams, no
frame of the merged outbound sequence is `data: [DONE]\n\n`; completion is
signalled by closing the channel (`controller.close()`), not by a sentinel. -/
theorem C1_no_sentinel_emitted (dsF dsR dsP : List Delta) (out : List (List Char))
    (h : Interleave3 (serverFrames (str "friendly") dsF)
      (serverFrames (str "rude") dsR) (serverFrames (str "professional") dsP) out) :
    sentinelFrame ∉ out := by
  intro hmem
  rcases interleave3_mem h _ hmem with hx | hx | hx
  · exact serverFrame_ne_sentinel _ _ _ hx rfl
  · exact serverFrame_ne_sentinel _ _ _ hx rfl
  · exact serverFrame_ne_sentinel _ _ _ hx rfl

/-- Witness for the amended C1 at a concrete exchange (one `friendly` chunk,
empty `rude`/`professional` streams, the unique interleaving). -/
theorem C1_no_sentinel_emitted_witness :
    sentinelFrame ∉ serverFrames (str "friendly") [{ reasoning := [], content := str "hi" }] :=
  C1_no_sentinel_emitted [{ reasoning := [], content := str "hi" }] [] []
    (serverFrames (str "friendly") [{ reasoning := [], content := str "hi" }])
    (Interleave3.left Interleave3.nil)

/-- Counterexample to C1 as stated: a successful exchange (one content chunk
on the `friendly` stream, a legal merged output of all three streams) whose
encoded output sequence contains no sentinel frame at all — in particular it
does not end with `data: [DONE]\n\n` and the sentinel is not emitted once. -/
theorem C1_counterexample :
    Interleave3 (serverFrames (str "friendly") [{ reasoning := [], content := str "hi" }])
      (serverFrames (str "rude") []) (serverFrames (str "professional") [])
      (serverFrames (str "friendly") [{ reasoning := [], content := str "hi" }]) ∧
    (serverFrames (str "friendly") [{ reasoning := [], content := str "hi" }]) ≠ [] ∧
    (serverFrames (str "friendly") [{ reasoning := [], content := str "hi" }]).getLast?
      ≠ some sentinelFrame ∧
    (serverFrames (str "friendly") [{ reasoning := [], content := str "hi" }]).count
      sentinelFrame = 0 := by
  refine ⟨Interleave3.left Interleave3.nil, by decide, by decide, by decide⟩

/-! ## `handleChatRequest` before streaming begins (C9) -/

inductive Role
  | user
  | assistant
  | system
deriving DecidableEq

/-- A chat message of the request body (`src/types.ts`). -/
structure ChatMsg where
  role : Role
  content : List Char
deriving DecidableEq

/-- The handler's outcome: a non-streamed JSON error response, or the
streaming response with the upstream calls it opened (one per tone, each
with the system-stripped user messages). -/
inductive ChatResponse
  | errorRes (status : Nat) (body : List Char)
  | streamRes (upstreamCalls : List (List Char × List ChatMsg))
deriving DecidableEq

/-- The upstream model calls a response performed (none for an error). -/
def upstreamCallsOf : ChatResponse → List (List Char × List ChatMsg)
  | ChatResponse.errorRes _ _ => []
  | ChatResponse.streamRes calls => calls

/-- `handleChatRequest` of `src/index.ts`, up to the point where streaming
begins.  `body = none` models a request body `request.json()` rejects (the
outer `catch` answers 500 `Failed to process request`); the credential is
`none` when the `Z_AI_API_KEY` secret is absent.  The check is
`if (!apiKey || apiKey.trim() === "")`, and on success three upstream
streaming calls are created, one per tone, before any byte is streamed. -/
def handleChatRequest (body : Option (List ChatMsg)) (apiKey : Option (List Char)) :
    ChatResponse :=
  match body with
  | none => ChatResponse.errorRes 500 (jsonError (str "Failed to process request"))
  | some msgs =>
    let userMessages := msgs.filter (fun m => m.role ≠ Role.system)
    match apiKey with
    | none =>
      ChatResponse.errorRes 500
        (jsonError (str "Server configuration error: Z_AI_API_KEY is not set"))
    | some k =>
      if jsTrim k = [] then
        ChatResponse.errorRes 500
          (jsonError (str "Server configuration error: Z_AI_API_KEY is not set"))
      else
        ChatResponse.streamRes (tones.map (fun t => (t, userMessages)))

/-- C9.  With a missing or blank credential the handler fails fast: the
result is a single non-streamed JSON error body `{"error": "<message>"}`
with error status 500, and no upstream call is opened (so no partial stream
can exist). -/
theorem C9_missing_credential_fails_fast (body : Option (List ChatMsg))
    (apiKey : Option (List Char))
    (h : apiKey = none ∨ ∃ k, apiKey = some k ∧ jsTrim k = []) :
    (∃ msg, handleChatRequest body apiKey = ChatResponse.errorRes 500 (jsonError msg)) ∧
    upstreamCallsOf (handleChatRequest body apiKey) = [] := by
  cases body with
  | none => exact ⟨⟨str "Failed to process request", rfl⟩, rfl⟩
  | some msgs =>
    rcases h with rfl | ⟨k, rfl, hk⟩
    · exact ⟨⟨str "Server configuration error: Z_AI_API_KEY is not set", rfl⟩, rfl⟩
    · refine ⟨⟨str "Server configuration error: Z_AI_API_KEY is not set", ?_⟩, ?_⟩
      · simp [handleChatRequest, hk]
      · simp [handleChatRequest, hk, upstreamCallsOf]

/-- Witness for C9 at a concrete request: well-formed body, blank key. -/
theorem C9_missing_credential_fails_fast_witness :
    ((some (str "  ") : Option (List Char)) = none ∨
      ∃ k, (some (str "  ") : Option (List Char)) = some k ∧ jsTrim k = []) ∧
    ((∃ msg, handleChatRequest (some [{ role := Role.user, content := str "hi" }])
        (some (str "  ")) = ChatResponse.errorRes 500 (jsonError msg)) ∧
      upstreamCallsOf (handleChatRequest (some [{ role := Role.user, content := str "hi" }])
        (some (str "  "))) = []) :=
  ⟨Or.inr ⟨str "  ", rfl, by decide⟩,
    C9_missing_credential_fails_fast _ _ (Or.inr ⟨str "  ", rfl, by decide⟩)⟩

/-! ## The per-region line processing of the decoder (C7) -/

/-- Counterexample to C7 as stated.  The claim says each retained `data:`
line is stripped of the prefix and one leading space, and no more, so the
region `data:  hi` (two spaces) would decode to the payload ` hi`.  The code
applies `trimStart()` and produces `hi`. -/
theorem C7_counterexample :
    consumeSseEvents (str "data:  hi\n\n") = ([str "hi"], []) ∧
    str "hi" ≠ str " hi" := by
  constructor
  · decide
  · decide

theorem findDelim_append_end : ∀ (raw : List Char), findDelim raw = none →
    raw.getLast? ≠ some '\n' → findDelim (raw ++ ['\n', '\n']) = some raw.length := by
  intro raw
  induction raw with
  | nil => intro _ _; decide
  | cons c rest ih =>
    intro hnone hlast
    cases rest with
    | nil =>
      have hc : c ≠ '\n' := by
        intro hc; subst hc; exact hlast rfl
      simp only [List.singleton_append, List.cons_append, List.nil_append]
      rw [findDelim]
      simp [hc, findDelim]
    | cons d t =>
      rw [findDelim] at hnone
      split at hnone
      · simp at hnone
      · rename_i hne
        simp only [Option.map_eq_none'] at hnone
        have hlast' : (d :: t).getLast? ≠ some '\n' := by
          simpa [List.getLast?_cons_cons] using hlast
        have := ih hnone hlast'
        simp only [List.cons_append]
        rw [findDelim]
        have hne' : ¬(c = '\n' ∧ d = '\n') := by
          intro hcd; exact hne hcd
        rw [List.cons_append] at this
        simp only [if_neg hne', this]
        simp

/-- C7 (amended).  For a delimited frame region the decoder retains exactly
the lines beginning with `data:`, strips from each the prefix and *all*
leading whitespace (`trimStart()`), joins multiple data lines with a single
newline, and yields the result as the one decoded payload of that region
(no payload when the region has no data line). -/
theorem C7_amended_region_decode (raw : List Char) (hcr : '\r' ∉ raw)
    (hnd : findDelim raw = none) (hlast : raw.getLast? ≠ some '\n') :
    consumeSseEvents (raw ++ str "\n\n") =
      (if ((splitNl raw).filter (fun l => (str "data:").isPrefixOf l)).map
          (fun l => (l.drop 5).dropWhile jsWs) = [] then ([], [])
       else ([List.intercalate ['\n']
          (((splitNl raw).filter (fun l => (str "data:").isPrefixOf l)).map
            (fun l => (l.drop 5).dropWhile jsWs))], [])) := by
  have hnlc : stripCR (str "\n\n") = ['\n', '\n'] := by decide
  have hstrip : stripCR (raw ++ str "\n\n") = raw ++ ['\n', '\n'] := by
    rw [stripCR_append, stripCR_of_not_cr raw hcr, hnlc]
  have hfd := findDelim_append_end raw hnd hlast
  have htake : (raw ++ ['\n', '\n']).take raw.length = raw := by
    rw [take_append_le _ _ _ (Nat.le_refl _), List.take_length]
  have hdrop : (raw ++ ['\n', '\n']).drop (raw.length + 2) = [] := by
    apply List.eq_nil_of_length_eq_zero
    simp
  have hloopnil : sseLoop [] = ([], []) := rfl
  rw [consumeSseEvents, hstrip, sseLoop_eq]
  rw [hfd]
  simp only [htake, hdrop, hloopnil]
  rw [regionEvent]
  simp only [dataLinesOf, jsTrimStart]
  by_cases hdl : ((splitNl raw).filter (fun l => (str "data:").isPrefixOf l)).map
      (fun l => (l.drop 5).dropWhile jsWs) = []
  · simp [hdl]
  · simp [hdl]

/-- Witness for the amended C7: a region with two data lines; payload is the
trimStart-stripped lines joined by a newline. -/
theorem C7_amended_region_decode_witness :
    ('\r' ∉ str "data: x\ndata: y" ∧ findDelim (str "data: x\ndata: y") = none ∧
      (str "data: x\ndata: y").getLast? ≠ some '\n') ∧
    consumeSseEvents (str "data: x\ndata: y" ++ str "\n\n") = ([str "x\ny"], []) :=
  ⟨⟨by decide, by decide, by decide⟩,
    (C7_amended_region_decode (str "data: x\ndata: y") (by decide) (by decide)
      (by decide)).trans (by decide)⟩

/-! ## Incremental markdown renderer (`parseMarkdown` of `public/chat.js`)

Each regex pass of `parseMarkdown` is embedded as a left-to-right scanner
with the exact JavaScript global-regex semantics: at every position the
pattern either matches (consuming the match and emitting its replacement)
or the scanner advances one character. -/

/-- The apostrophe character. -/
def apos : Char := Char.ofNat 39

/-- `escapeHtml` of `parseMarkdown`: the five sequential global replaces
`&→&amp; <→&lt; >→&gt; "→&quot; '→&#039;`, equivalent to this per-character
map because no replacement reintroduces a later pattern. -/
def escapeHtmlChar (c : Char) : List Char :=
  if c = '&' then str "&amp;"
  else if c = '<' then str "&lt;"
  else if c = '>' then str "&gt;"
  else if c = '"' then str "&quot;"
  else if c = apos then str "&#039;"
  else [c]

def escapeHtml (s : List Char) : List Char := (s.map escapeHtmlChar).flatten

/-- Generic global-regex scanner: `f` inspects the current suffix and either
matches (returning the replacement and the number of consumed characters,
at least one) or the scanner emits one character and advances.  Fuel-driven
recursion; fuel is irrelevant once it dominates the length. -/
def scanRepF (f : List Char → Option (List Char × Nat)) : Nat → List Char → List Char
  | 0, s => s
  | _ + 1, [] => []
  | fuel + 1, c :: rest =>
    match f (c :: rest) with
    | some (rep, k) =>
      if 1 ≤ k then rep ++ scanRepF f fuel ((c :: rest).drop k)
      else c :: scanRepF f fuel rest
    | none => c :: scanRepF f fuel rest

def scanRep (f : List Char → Option (List Char × Nat)) (s : List Char) : List Char :=
  scanRepF f s.length s

theorem scanRepF_irrel (f : List Char → Option (List Char × Nat)) :
    ∀ f₁ f₂ s, s.length ≤ f₁ → s.length ≤ f₂ → scanRepF f f₁ s = scanRepF f f₂ s := by
  intro f₁
  induction f₁ using Nat.strong_induction_on with
  | _ f₁ ih =>
    intro f₂ s h₁ h₂
    match f₁, f₂, s with
    | 0, 0, s => rfl
    | 0, f₂ + 1, s =>
      have : s = [] := List.eq_nil_of_length_eq_zero (Nat.le_zero.mp h₁)
      subst this; rfl
    | f₁ + 1, 0, s =>
      have : s = [] := List.eq_nil_of_length_eq_zero (Nat.le_zero.mp h₂)
      subst this; rfl
    | f₁ + 1, f₂ + 1, [] => rfl
    | f₁ + 1, f₂ + 1, c :: rest =>
      simp only [scanRepF]
      have hr : rest.length ≤ f₁ := by simp at h₁; omega
      have hr' : rest.length ≤ f₂ := by simp at h₂; omega
      cases hf : f (c :: rest) with
      | none => rw [ih f₁ (Nat.lt_succ_self _) f₂ rest hr hr']
      | some p =>
        by_cases hk : 1 ≤ p.2
        · have hd : ((c :: rest).drop p.2).length ≤ f₁ := by
            simp [List.length_drop] at h₁ ⊢; omega
          have hd' : ((c :: rest).drop p.2).length ≤ f₂ := by
            simp [List.length_drop] at h₂ ⊢; omega
          simp only [hk, if_true, ih f₁ (Nat.lt_succ_self _) f₂ _ hd hd']
        · simp only [hk, if_false, ih f₁ (Nat.lt_succ_self _) f₂ rest hr hr']

theorem scanRep_eq (f : List Char → Option (List Char × Nat)) (s : List Char) :
    scanRep f s =
      match s with
      | [] => []
      | c :: rest =>
        match f (c :: rest) with
        | some (rep, k) =>
          if 1 ≤ k then rep ++ scanRep f ((c :: rest).drop k)
          else c :: scanRep f rest
        | none => c :: scanRep f rest := by
  unfold scanRep
  cases s with
  | nil => rfl
  | cons c rest =>
    simp only [List.length_cons, scanRepF]
    cases hf : f (c :: rest) with
    | none => rw [scanRepF_irrel f rest.length rest.length rest (Nat.le_refl _) (Nat.le_refl _)]
    | some p =>
      by_cases hk : 1 ≤ p.2
      · have : ((c :: rest).drop p.2).length ≤ rest.length := by
          simp [List.length_drop]; omega
        simp only [hk, if_true]
        rw [scanRepF_irrel f rest.length ((c :: rest).drop p.2).length _ this (Nat.le_refl _)]
      · simp only [hk, if_false]

/-- `\w` of the fence regex. -/
def wordChar (c : Char) : Bool :=
  (97 ≤ c.toNat && c.toNat ≤ 122) || (65 ≤ c.toNat && c.toNat ≤ 90) ||
  (48 ≤ c.toNat && c.toNat ≤ 57) || c = '_'

/-- First index at which `pat` occurs (the lazy `[\s\S]*?` search). -/
def findSub (pat : List Char) : List Char → Option Nat
  | [] => if pat.isEmpty then some 0 else none
  | c :: rest =>
    if pat.isPrefixOf (c :: rest) then some 0 else (findSub pat rest).map (· + 1)

/-- Three backticks. -/
def tks : List Char := [bt, bt, bt]

/-- Fenced code blocks:
`html.replace(/```(\w+)?\n([\s\S]*?)```/g, (m, lang, code) =>
'<pre><code>' + code.trim() + '</code></pre>')`. -/
def fenceF (s : List Char) : Option (List Char × Nat) :=
  if tks.isPrefixOf s then
    let after := s.drop 3
    let w := after.takeWhile wordChar
    match after.dropWhile wordChar with
    | '\n' :: r2 =>
      match findSub tks r2 with
      | some i =>
        some (str "<pre><code>" ++ jsTrim (r2.take i) ++ str "</code></pre>",
              3 + w.length + 1 + i + 3)
      | none => none
    | _ => none
  else none

def fencePass (s : List Char) : List Char := scanRep fenceF s

/-- Delimiter pair patterns `/\*\*([^*]+)\*\*/`, `/__([^_]+)__/`,
`/\*([^*]+)\*/`, `/_([^_]+)_/`: opening delimiter, a nonempty run free of
the delimiter character, closing delimiter. -/
def pairF (delim opn cls : List Char) (dchar : Char) (s : List Char) :
    Option (List Char × Nat) :=
  if delim.isPrefixOf s then
    let body := (s.drop delim.length).takeWhile (fun x => x ≠ dchar)
    if body = [] then none
    else if delim.isPrefixOf ((s.drop delim.length).dropWhile (fun x => x ≠ dchar)) then
      some (opn ++ body ++ cls, delim.length + body.length + delim.length)
    else none
  else none

/-- Inline code: `html.replace(/`([^`]+)`/g, '<code>$1</code>')` — a
backtick, a nonempty backtick-free run, a closing backtick. -/
def inlineCodePass (s : List Char) : List Char :=
  scanRep (pairF [bt] (str "<code>") (str "</code>") bt) s

def boldStarPass (s : List Char) : List Char :=
  scanRep (pairF ['*', '*'] (str "<strong>") (str "</strong>") '*') s

def boldUnderPass (s : List Char) : List Char :=
  scanRep (pairF ['_', '_'] (str "<strong>") (str "</strong>") '_') s

def emStarPass (s : List Char) : List Char :=
  scanRep (pairF ['*'] (str "<em>") (str "</em>") '*') s

def emUnderPass (s : List Char) : List Char :=
  scanRep (pairF ['_'] (str "<em>") (str "</em>") '_') s

/-- JavaScript line terminators (what `.` excludes and multiline `^`/`$`
anchor around). -/
def lineTerm (c : Char) : Bool :=
  c = '\n' || c = '\r' || c = Char.ofNat 8232 || c = Char.ofNat 8233

/-- Apply `g` to every line of a multiline-anchored replace, keeping the
terminators (the `gim` header and blockquote passes). -/
def mapSegsF (g : List Char → List Char) : Nat → List Char → List Char
  | 0, s => g s
  | fuel + 1, s =>
    let seg := s.takeWhile (fun c => !lineTerm c)
    match s.dropWhile (fun c => !lineTerm c) with
    | [] => g seg
    | t :: rest => g seg ++ t :: mapSegsF g fuel rest

def mapSegs (g : List Char → List Char) (s : List Char) : List Char :=
  mapSegsF g s.length s

/-- One header / blockquote line rewrite: `^marker(.*$)` → `opn$1cls`. -/
def hSeg (marker opn cls : List Char) (seg : List Char) : List Char :=
  if marker.isPrefixOf seg then opn ++ seg.drop marker.length ++ cls else seg

def h3Pass (s : List Char) : List Char := mapSegs (hSeg (str "### ") (str "<h3>") (str "</h3>")) s

def h2Pass (s : List Char) : List Char := mapSegs (hSeg (str "## ") (str "<h2>") (str "</h2>")) s

def h1Pass (s : List Char) : List Char := mapSegs (hSeg (str "# ") (str "<h1>") (str "</h1>")) s

/-- The URL sanitizer inside the link replacement of `parseMarkdown`. -/
def sanitizeUrl (url : List Char) : List Char :=
  let t := jsTrim url
  let lo := t.map Char.toLower
  let allowedScheme := (str "http://").isPrefixOf lo || (str "https://").isPrefixOf lo ||
    (str "mailto:").isPrefixOf lo
  let relOrHash :=
    (match t with
     | c :: _ => c = '/' || c = '#'
     | [] => false) || !(t.contains ':')
  if allowedScheme || relOrHash then t else ['#']

/-- The anchor the link replacement produces. -/
def aTagOf (url txt : List Char) : List Char :=
  str "<a href=\"" ++ sanitizeUrl url ++
    str "\" target=\"_blank\" rel=\"noopener noreferrer\">" ++ txt ++ str "</a>"

/-- Links: `html.replace(/\[([^\]]+)\]\(([^)]+)\)/g, ...)`: `[`, a nonempty
`]`-free text, the literal `](`, a nonempty `)`-free target, `)`.  (The
`dropWhile` results start with `]` resp. `)` whenever they are nonempty, so
the prefix tests spell out exactly the regex's literal parts.) -/
def linkF (s : List Char) : Option (List Char × Nat) :=
  match s with
  | c0 :: r =>
    if c0 = '[' then
      let txt := r.takeWhile (fun x => x ≠ ']')
      if txt = [] then none
      else if (str "](").isPrefixOf (r.dropWhile (fun x => x ≠ ']')) then
        let r2 := (r.dropWhile (fun x => x ≠ ']')).drop 2
        let url := r2.takeWhile (fun x => x ≠ ')')
        if url = [] then none
        else if [')'].isPrefixOf (r2.dropWhile (fun x => x ≠ ')')) then
          some (aTagOf url txt, 1 + txt.length + 2 + url.length + 1)
        else none
      else none
    else none
  | [] => none

def linksPass (s : List Char) : List Char := scanRep linkF s

/-- `.` of a non-dotall regex: everything but a line terminator. -/
def jsDotChar (c : Char) : Bool := !lineTerm c

def isDigitCh (c : Char) : Bool := 48 ≤ c.toNat && c.toNat ≤ 57

/-- `/^[*-] (.+)$/.test(line)` of the list-grouping loop. -/
def isUlItem (line : List Char) : Bool :=
  match line with
  | c :: ' ' :: rest => (c = '*' || c = '-') && !rest.isEmpty && rest.all jsDotChar
  | _ => false

/-- `/^\d+\. (.+)$/.test(line)`. -/
def isOlItem (line : List Char) : Bool :=
  let ds := line.takeWhile isDigitCh
  !ds.isEmpty &&
    (match line.drop ds.length with
     | '.' :: ' ' :: r => !r.isEmpty && r.all jsDotChar
     | _ => false)

def ulLi (line : List Char) : List Char := str "<li>" ++ line.drop 2 ++ str "</li>"

def olLi (line : List Char) : List Char :=
  str "<li>" ++ line.drop ((line.takeWhile isDigitCh).length + 2) ++ str "</li>"

/-- The list-grouping loop of `parseMarkdown` (consecutive matching lines
grouped, non-matching lines close open lists, trailing lists closed). -/
def listLoop : Bool → Bool → List (List Char) → List (List Char)
  | inUl, inOl, [] =>
    (if inUl then [str "</ul>"] else []) ++ (if inOl then [str "</ol>"] else [])
  | inUl, inOl, l :: rest =>
    if isUlItem l then
      (if inUl then [] else [str "<ul>"]) ++ ulLi l :: listLoop true inOl rest
    else if isOlItem l then
      (if inOl then [] else [str "<ol>"]) ++ olLi l :: listLoop inUl true rest
    else
      (if inUl then [str "</ul>"] else []) ++ (if inOl then [str "</ol>"] else []) ++
        l :: listLoop false false rest

def listPass (s : List Char) : List Char :=
  List.intercalate ['\n'] (listLoop false false (splitNl s))

/-- Blockquote line rewrite `^> (.+)$` (the `(.+)` needs one character). -/
def bqSeg (seg : List Char) : List Char :=
  if (str "> ").isPrefixOf seg && !(seg.drop 2).isEmpty then
    str "<blockquote>" ++ seg.drop 2 ++ str "</blockquote>"
  else seg

def bqPass (s : List Char) : List Char := mapSegs bqSeg s

/-- `<br>` replacement alternative of `replaceNewlinesOutsideBlocks`. -/
def rnobBr (s : List Char) : Option (List Char × Nat) :=
  match s with
  | '\n' :: _ => some (str "<br>", 1)
  | _ => none

def rnobOl (s : List Char) : Option (List Char × Nat) :=
  if (str "<ol>").isPrefixOf s then
    match findSub (str "</ol>") (s.drop 4) with
    | some i => some (s.take (4 + i + 5), 4 + i + 5)
    | none => rnobBr s
  else rnobBr s

def rnobUl (s : List Char) : Option (List Char × Nat) :=
  if (str "<ul>").isPrefixOf s then
    match findSub (str "</ul>") (s.drop 4) with
    | some i => some (s.take (4 + i + 5), 4 + i + 5)
    | none => rnobOl s
  else rnobOl s

/-- `replaceNewlinesOutsideBlocks`: copy `<pre><code>…</code></pre>`,
`<ul>…</ul>`, `<ol>…</ol>` blocks verbatim, replace `\n` by `<br>`
everywhere else. -/
def rnobF (s : List Char) : Option (List Char × Nat) :=
  if (str "<pre><code>").isPrefixOf s then
    match findSub (str "</code></pre>") (s.drop 11) with
    | some i => some (s.take (11 + i + 13), 11 + i + 13)
    | none => rnobUl s
  else rnobUl s

def rnobPass (s : List Char) : List Char := scanRep rnobF s

/-- `parseMarkdown` of `public/chat.js` (second, list-grouping version):
escape, fences, inline code, bold (`**`, `__`), italic (`*`, `_`), headers
(h3, h2, h1), links, list grouping, blockquotes, newline conversion outside
blocks. -/
def parseMarkdown (text : List Char) : List Char :=
  rnobPass (bqPass (listPass (linksPass (h1Pass (h2Pass (h3Pass
    (emUnderPass (emStarPass (boldUnderPass (boldStarPass
      (inlineCodePass (fencePass (escapeHtml text)))))))))))))

/-! ## Link-target sanitisation (C5) -/

/-- The claim's allowed-target predicate: scheme `http:`, `https:` or
`mailto:`, or a schemeless/relative/fragment reference (starts with `/` or
`#`, or contains no colon), judged on the trimmed target as the renderer
sees it. -/
def claimAllowedTarget (url : List Char) : Bool :=
  let t := jsTrim url
  let lo := t.map Char.toLower
  (str "http:").isPrefixOf lo || (str "https:").isPrefixOf lo ||
    (str "mailto:").isPrefixOf lo ||
    (match t with
     | c :: _ => c = '/' || c = '#'
     | [] => false) || !(t.contains ':')

theorem isPrefixOf_trans {a b c : List Char} (h1 : a.isPrefixOf b)
    (h2 : b.isPrefixOf c) : a.isPrefixOf c := by
  rw [List.isPrefixOf_iff_prefix] at h1 h2 ⊢
  exact h1.trans h2

/-- C5.  The anchor's href keeps the (trimmed) original target only when the
claim allows it, and any disallowed target is replaced by the placeholder
`#`; in particular `[click](javascript:alert(1))` renders with `href="#"`. -/
theorem C5_link_target_sanitized :
    (∀ url : List Char,
      (sanitizeUrl url = jsTrim url → claimAllowedTarget url = true) ∧
      (claimAllowedTarget url = false → sanitizeUrl url = ['#'])) ∧
    parseMarkdown (str "[click](javascript:alert(1))") =
      str "<a href=\"#\" target=\"_blank\" rel=\"noopener noreferrer\">click</a>)" := by
  constructor
  · intro url
    have hstep : claimAllowedTarget url = false → sanitizeUrl url = ['#'] := by
      intro hca
      unfold sanitizeUrl
      simp only [claimAllowedTarget, Bool.or_eq_false_iff] at hca
      obtain ⟨⟨⟨⟨h1, h2⟩, h3⟩, h4⟩, h5⟩ := hca
      have hh1 : ((str "http://").isPrefixOf (List.map Char.toLower (jsTrim url))) = false := by
        by_contra hc
        simp only [Bool.not_eq_false] at hc
        exact absurd (isPrefixOf_trans (a := str "http:") (by decide) hc) (by simp [h1])
      have hh2 : ((str "https://").isPrefixOf (List.map Char.toLower (jsTrim url))) = false := by
        by_contra hc
        simp only [Bool.not_eq_false] at hc
        exact absurd (isPrefixOf_trans (a := str "https:") (by decide) hc) (by simp [h2])
      simp only [hh1, hh2, h3, h4, h5, Bool.or_false, Bool.false_or]
      simp
    refine ⟨?_, hstep⟩
    intro hkeep
    by_contra hca
    simp only [Bool.not_eq_true] at hca
    have := hstep hca
    rw [this] at hkeep
    have ht : jsTrim url = ['#'] := hkeep.symm
    have : claimAllowedTarget url = true := by
      simp [claimAllowedTarget, ht]
    rw [this] at hca
    cases hca
  · decide

/-- Witness for C5 at the claim's own example target. -/
theorem C5_link_target_sanitized_witness :
    claimAllowedTarget (str "javascript:alert(1)") = false ∧
    sanitizeUrl (str "javascript:alert(1)") = ['#'] :=
  ⟨by decide, (C5_link_target_sanitized.1 (str "javascript:alert(1)")).2 (by decide)⟩

/-! ## Markup-position invariant

`fbChk c L s` says every occurrence of the trigger character `c` in `s` is
immediately followed by one of the continuations in `L` — instantiated with
`'<'` and the renderer's tag bodies (every `<` begins a renderer tag), and
with `'&'` and the five entity bodies (every `&` begins an escape entity). -/

def fbChk (c : Char) (L : List (List Char)) : List Char → Bool
  | [] => true
  | a :: rest =>
    (if a = c then L.any (fun l => l.isPrefixOf rest) else true) && fbChk c L rest

theorem fbChk_cons (c : Char) (L : List (List Char)) (a : Char) (s : List Char) :
    fbChk c L (a :: s) =
      ((if a = c then L.any (fun l => l.isPrefixOf s) else true) && fbChk c L s) := rfl

theorem fbChk_tail {c : Char} {L : List (List Char)} {a : Char} {s : List Char}
    (h : fbChk c L (a :: s) = true) : fbChk c L s = true := by
  rw [fbChk_cons, Bool.and_eq_true] at h
  exact h.2

theorem fbChk_drop {c : Char} {L : List (List Char)} {s : List Char}
    (h : fbChk c L s = true) : ∀ n, fbChk c L (s.drop n) = true := by
  induction s with
  | nil => intro n; simp [List.drop_nil]; rfl
  | cons a rest ih =>
    intro n
    cases n with
    | zero => exact h
    | succ m => exact ih (fbChk_tail h) m

theorem fbChk_of_not_mem {c : Char} {L : List (List Char)} {s : List Char}
    (h : c ∉ s) : fbChk c L s = true := by
  induction s with
  | nil => rfl
  | cons a rest ih =>
    rw [fbChk_cons, Bool.and_eq_true]
    refine ⟨?_, ih (fun hc => h (List.mem_cons_of_mem _ hc))⟩
    have : a ≠ c := fun hc => h (hc ▸ List.mem_cons_self _ _)
    simp [this]

theorem fbChk_append {c : Char} {L : List (List Char)} {a b : List Char}
    (ha : fbChk c L a = true) (hb : fbChk c L b = true) :
    fbChk c L (a ++ b) = true := by
  induction a with
  | nil => simpa using hb
  | cons x rest ih =>
    rw [List.cons_append, fbChk_cons, Bool.and_eq_true]
    rw [fbChk_cons, Bool.and_eq_true] at ha
    refine ⟨?_, ih ha.2⟩
    obtain ⟨h1, _⟩ := ha
    by_cases hx : x = c
    · subst hx
      rw [if_pos rfl] at h1 ⊢
      rw [List.any_eq_true] at h1 ⊢
      obtain ⟨l, hl, hp⟩ := h1
      refine ⟨l, hl, ?_⟩
      rw [List.isPrefixOf_iff_prefix] at hp ⊢
      exact hp.trans (List.prefix_append rest b)
    · rw [if_neg hx]

theorem prefix_cut {l u w : List Char} {d : Char} (h : l <+: (u ++ d :: w))
    (hd : d ∉ l) : l <+: u := by
  induction l generalizing u with
  | nil => exact List.nil_prefix
  | cons x l' ih =>
    cases u with
    | nil =>
      simp only [List.nil_append, List.cons_prefix_cons] at h
      exact absurd (h.1 ▸ List.mem_cons_self x l') hd
    | cons y u' =>
      simp only [List.cons_append, List.cons_prefix_cons] at h
      obtain ⟨rfl, h2⟩ := h
      rw [List.cons_prefix_cons]
      exact ⟨rfl, ih h2 (fun hm => hd (List.mem_cons_of_mem _ hm))⟩

/-- Splitting safely at a boundary character that occurs in no continuation:
no `c`-continuation can cross the boundary. -/
theorem fbChk_split {c : Char} {L : List (List Char)} {u w : List Char} {d : Char}
    (h : fbChk c L (u ++ d :: w) = true) (hd : ∀ l ∈ L, d ∉ l) :
    fbChk c L u = true := by
  induction u with
  | nil => rfl
  | cons x u' ih =>
    rw [List.cons_append] at h
    rw [fbChk_cons, Bool.and_eq_true] at h ⊢
    refine ⟨?_, ih h.2⟩
    obtain ⟨h1, _⟩ := h
    by_cases hx : x = c
    · subst hx
      rw [if_pos rfl] at h1 ⊢
      rw [List.any_eq_true] at h1 ⊢
      obtain ⟨l, hl, hp⟩ := h1
      rw [List.isPrefixOf_iff_prefix] at hp
      refine ⟨l, hl, ?_⟩
      rw [List.isPrefixOf_iff_prefix]
      exact prefix_cut hp (hd l hl)
    · rw [if_neg hx]

/-- Decomposition of a prefix of an append. -/
theorem prefix_append_cases {l u v : List Char} (h : l <+: (u ++ v)) :
    l <+: u ∨ ∃ w, l = u ++ w ∧ w <+: v ∧ w ≠ [] := by
  induction u generalizing l with
  | nil =>
    cases l with
    | nil => exact Or.inl List.nil_prefix
    | cons x l' =>
      exact Or.inr ⟨x :: l', by simp, by simpa using h, by simp⟩
  | cons y u' ih =>
    cases l with
    | nil => exact Or.inl List.nil_prefix
    | cons x l' =>
      simp only [List.cons_append, List.cons_prefix_cons] at h
      obtain ⟨rfl, h2⟩ := h
      rcases ih h2 with hc | ⟨w, rfl, hw, hne⟩
      · exact Or.inl (by rw [List.cons_prefix_cons]; exact ⟨rfl, hc⟩)
      · exact Or.inr ⟨w, by simp, hw, hne⟩

/-- Splitting before an all-whitespace suffix, when no continuation ends in
whitespace (used for `trim`). -/
theorem fbChk_prefix_ws {c : Char} {L : List (List Char)} {u v : List Char}
    (h : fbChk c L (u ++ v) = true) (hv : ∀ x ∈ v, jsWs x = true)
    (hL : ∀ l ∈ L, ∀ x, l.getLast? = some x → jsWs x = false) :
    fbChk c L u = true := by
  induction u with
  | nil => rfl
  | cons x u' ih =>
    rw [List.cons_append] at h
    rw [fbChk_cons, Bool.and_eq_true] at h ⊢
    refine ⟨?_, ih h.2⟩
    obtain ⟨h1, _⟩ := h
    by_cases hx : x = c
    · subst hx
      rw [if_pos rfl] at h1 ⊢
      rw [List.any_eq_true] at h1 ⊢
      obtain ⟨l, hl, hp⟩ := h1
      rw [List.isPrefixOf_iff_prefix] at hp
      refine ⟨l, hl, ?_⟩
      rw [List.isPrefixOf_iff_prefix]
      rcases prefix_append_cases hp with hc | ⟨w, rfl, hw, hne⟩
      · exact hc
      · exfalso
        obtain ⟨x0, hx0⟩ := Option.isSome_iff_exists.mp (List.getLast?_isSome.mpr hne)
        have hlast : (u' ++ w).getLast? = some x0 := by
          rw [List.getLast?_append_of_ne_nil u' hne]
          exact hx0
        have hws : jsWs x0 = false := hL _ hl _ hlast
        have hmem : x0 ∈ w := List.mem_of_getLast?_eq_some hx0
        have hx0v : x0 ∈ v := hw.sublist.mem hmem
        rw [hv x0 hx0v] at hws
        cases hws
    · rw [if_neg hx]

theorem mem_dropLast_append_gt : ∀ (a b : List Char), b ≠ [] →
    '>' ∈ (a ++ '>' :: b).dropLast := by
  intro a
  induction a with
  | nil =>
    intro b hb
    cases b with
    | nil => exact absurd rfl hb
    | cons y t => simp
  | cons y a' ih =>
    intro b hb
    rw [List.cons_append]
    rw [List.dropLast_cons_of_ne_nil (by simp)]
    exact List.mem_cons_of_mem _ (ih b hb)

/-- Splitting right after a `>` when `>` only ever ends a continuation
(used for the verbatim block copies of `replaceNewlinesOutsideBlocks`). -/
theorem fbChk_prefix_last_gt {c : Char} {L : List (List Char)} {v : List Char}
    (hc : c ≠ '>') (hL : ∀ l ∈ L, '>' ∉ l.dropLast) :
    ∀ u, fbChk c L (u ++ v) = true → u.getLast? = some '>' → fbChk c L u = true := by
  intro u
  induction u with
  | nil => intro _ _; rfl
  | cons x u' ih =>
    intro h hu
    rw [List.cons_append] at h
    rw [fbChk_cons, Bool.and_eq_true] at h ⊢
    obtain ⟨h1, h2⟩ := h
    refine ⟨?_, ?_⟩
    · by_cases hx : x = c
      · subst hx
        rw [if_pos rfl] at h1 ⊢
        rw [List.any_eq_true] at h1 ⊢
        obtain ⟨l, hl, hp⟩ := h1
        rw [List.isPrefixOf_iff_prefix] at hp
        refine ⟨l, hl, ?_⟩
        rw [List.isPrefixOf_iff_prefix]
        rcases prefix_append_cases hp with hgood | ⟨w, rfl, hw, hne⟩
        · exact hgood
        · exfalso
          cases u' with
          | nil =>
            simp only [List.getLast?_singleton, Option.some.injEq] at hu
            exact hc hu
          | cons z u₂ =>
            have hlast : (z :: u₂).getLast? = some '>' := by
              rwa [List.getLast?_cons_cons] at hu
            obtain ⟨a, ha⟩ := (List.getLast?_eq_some_iff).mp hlast
            have hmem : '>' ∈ ((z :: u₂) ++ w).dropLast := by
              rw [ha, List.append_assoc]
              exact mem_dropLast_append_gt a w hne
            exact hL _ hl hmem
      · rw [if_neg hx]
    · cases u' with
      | nil => rfl
      | cons z u₂ =>
        have hlast : (z :: u₂).getLast? = some '>' := by
          rwa [List.getLast?_cons_cons] at hu
        exact ih h2 hlast

/-! ## Tag inventory and tag-sequence extraction -/

/-- Every markup token the renderer ever inserts. -/
inductive Tg
  | preO | preC | codeO | codeC | strongO | strongC | emO | emC
  | h1O | h1C | h2O | h2C | h3O | h3C | aO | aC
  | ulO | ulC | olO | olC | liO | liC | bqO | bqC | brT
deriving DecidableEq

/-- The literal text of each token (`aO` is the fixed prefix of the anchor
tag; the rest of the anchor up to `>` contains no `<`). -/
def tagStr : Tg → List Char
  | Tg.preO => str "<pre>"
  | Tg.preC => str "</pre>"
  | Tg.codeO => str "<code>"
  | Tg.codeC => str "</code>"
  | Tg.strongO => str "<strong>"
  | Tg.strongC => str "</strong>"
  | Tg.emO => str "<em>"
  | Tg.emC => str "</em>"
  | Tg.h1O => str "<h1>"
  | Tg.h1C => str "</h1>"
  | Tg.h2O => str "<h2>"
  | Tg.h2C => str "</h2>"
  | Tg.h3O => str "<h3>"
  | Tg.h3C => str "</h3>"
  | Tg.aO => str "<a href=\""
  | Tg.aC => str "</a>"
  | Tg.ulO => str "<ul>"
  | Tg.ulC => str "</ul>"
  | Tg.olO => str "<ol>"
  | Tg.olC => str "</ol>"
  | Tg.liO => str "<li>"
  | Tg.liC => str "</li>"
  | Tg.bqO => str "<blockquote>"
  | Tg.bqC => str "</blockquote>"
  | Tg.brT => str "<br>"

def allTags : List Tg :=
  [Tg.preO, Tg.preC, Tg.codeO, Tg.codeC, Tg.strongO, Tg.strongC, Tg.emO, Tg.emC,
   Tg.h1O, Tg.h1C, Tg.h2O, Tg.h2C, Tg.h3O, Tg.h3C, Tg.aO, Tg.aC,
   Tg.ulO, Tg.ulC, Tg.olO, Tg.olC, Tg.liO, Tg.liC, Tg.bqO, Tg.bqC, Tg.brT]

/-- The continuations after `<` of each token. -/
def tagTails : List (List Char) := allTags.map (fun t => (tagStr t).drop 1)

/-- Every `<` of the string begins one of the renderer's tokens. -/
def fbTags (s : List Char) : Bool := fbChk '<' tagTails s

/-- The five escape-entity continuations after `&`. -/
def entTails : List (List Char) :=
  [str "amp;", str "lt;", str "gt;", str "quot;", str "#039;"]

/-- Every `&` of the string begins one of the five escape entities. -/
def fbEnts (s : List Char) : Bool := fbChk '&' entTails s

/-- Which token starts at this position. -/
def findTag (s : List Char) : Option Tg :=
  allTags.find? (fun t => (tagStr t).isPrefixOf s)

/-- The sequence of renderer tokens of a string, in order. -/
def tl : List Char → List Tg
  | [] => []
  | c :: rest => (if c = '<' then (findTag (c :: rest)).toList else []) ++ tl rest

/-- A weighted token count. -/
def tlW (w : Tg → Int) (s : List Char) : Int := ((tl s).map w).sum

theorem tags_prefix_free : ∀ t ∈ allTags, ∀ t' ∈ allTags,
    (tagStr t).isPrefixOf (tagStr t') = true → t = t' := by decide

theorem tagStr_head : ∀ t ∈ allTags, tagStr t = '<' :: (tagStr t).drop 1 := by decide

theorem mem_allTags : ∀ t : Tg, t ∈ allTags := by
  intro t
  cases t <;> decide

theorem tl_cons_ne {c : Char} (h : c ≠ '<') (s : List Char) :
    tl (c :: s) = tl s := by
  rw [tl]
  simp [h]

theorem tl_cons_lt (s : List Char) :
    tl ('<' :: s) = (findTag ('<' :: s)).toList ++ tl s := by
  rw [tl]
  simp

/-- A complete continuation right after `<` determines the prefix test of
every token, independently of what follows the continuation. -/
theorem tag_prefix_stable {l : List Char} (hl : l ∈ tagTails) (t : Tg)
    (x : List Char) :
    ((tagStr t).isPrefixOf ('<' :: (l ++ x)) = true) ↔ (tagStr t).drop 1 <+: l := by
  rw [List.isPrefixOf_iff_prefix]
  rw [tagStr_head t (mem_allTags t)]
  rw [List.cons_prefix_cons]
  simp only [true_and]
  constructor
  · intro hp
    rcases prefix_append_cases hp with hc | ⟨w, hw, _, hne⟩
    · exact hc
    · exfalso
      simp only [tagTails, List.mem_map] at hl
      obtain ⟨t0, _, hteq⟩ := hl
      have hpref : (tagStr t0).isPrefixOf (tagStr t) = true := by
        rw [List.isPrefixOf_iff_prefix]
        rw [tagStr_head t0 (mem_allTags t0), tagStr_head t (mem_allTags t), hteq]
        rw [List.cons_prefix_cons]
        exact ⟨rfl, ⟨w, hw.symm⟩⟩
      have := tags_prefix_free t0 (mem_allTags t0) t (mem_allTags t) hpref
      subst this
      rw [hteq] at hw
      have hwnil : w = [] := by
        have hlen := congrArg List.length hw
        simp only [List.length_append] at hlen
        exact List.eq_nil_of_length_eq_zero (by omega)
      exact hne hwnil
  · intro hc
    calc (tagStr t).drop 1 <+: l := hc
      _ <+: l ++ x := List.prefix_append l x

theorem findTag_stable {l : List Char} (hl : l ∈ tagTails) (x y : List Char) :
    findTag ('<' :: (l ++ x)) = findTag ('<' :: (l ++ y)) := by
  unfold findTag
  have hfun : (fun t => (tagStr t).isPrefixOf ('<' :: (l ++ x))) =
      (fun t => (tagStr t).isPrefixOf ('<' :: (l ++ y))) := by
    funext t
    have h1 := tag_prefix_stable hl t x
    have h2 := tag_prefix_stable hl t y
    by_cases hc : (tagStr t).drop 1 <+: l
    · rw [h1.mpr hc, h2.mpr hc]
    · have e1 : (tagStr t).isPrefixOf ('<' :: (l ++ x)) = false := by
        by_contra he
        simp only [Bool.not_eq_false] at he
        exact hc (h1.mp he)
      have e2 : (tagStr t).isPrefixOf ('<' :: (l ++ y)) = false := by
        by_contra he
        simp only [Bool.not_eq_false] at he
        exact hc (h2.mp he)
      rw [e1, e2]
  rw [hfun]

/-- The token weight sum distributes over an append whose left part has all
its `<`-continuations complete. -/
theorem tl_append {a b : List Char} (ha : fbTags a = true) :
    tl (a ++ b) = tl a ++ tl b := by
  induction a with
  | nil => simp [tl]
  | cons x a' ih =>
    unfold fbTags at ha
    rw [fbChk_cons, Bool.and_eq_true] at ha
    obtain ⟨h1, h2⟩ := ha
    by_cases hx : x = '<'
    · subst hx
      rw [if_pos rfl, List.any_eq_true] at h1
      obtain ⟨l, hl, hp⟩ := h1
      rw [List.isPrefixOf_iff_prefix] at hp
      obtain ⟨z, hz⟩ := hp
      rw [List.cons_append, tl_cons_lt, tl_cons_lt, ih h2]
      subst hz
      rw [List.append_assoc]
      rw [findTag_stable hl (z ++ b) z]
      rw [List.append_assoc]
    · rw [List.cons_append, tl_cons_ne hx, tl_cons_ne hx, ih h2]

theorem tlW_append {w : Tg → Int} {a b : List Char} (ha : fbTags a = true) :
    tlW w (a ++ b) = tlW w a + tlW w b := by
  unfold tlW
  rw [tl_append ha]
  simp

theorem tl_of_no_lt {s : List Char} (h : '<' ∉ s) : tl s = [] := by
  induction s with
  | nil => rfl
  | cons x rest ih =>
    have hx : x ≠ '<' := fun hc => h (hc ▸ List.mem_cons_self _ _)
    rw [tl_cons_ne hx]
    exact ih (fun hc => h (List.mem_cons_of_mem _ hc))

theorem tlW_of_no_lt {w : Tg → Int} {s : List Char} (h : '<' ∉ s) : tlW w s = 0 := by
  unfold tlW
  rw [tl_of_no_lt h]
  rfl

theorem no_lt_in_tagTails : ∀ l ∈ tagTails, '<' ∉ l := by decide

/-- A scanner whose matches only start at delimiter characters copies any
delimiter-free prefix verbatim. -/
theorem scanRep_copy (f : List Char → Option (List Char × Nat)) (isD : Char → Bool)
    (hD : ∀ s r, f s = some r → ∃ d, s.head? = some d ∧ isD d = true) :
    ∀ (l z : List Char), (∀ x ∈ l, isD x = false) →
      scanRep f (l ++ z) = l ++ scanRep f z := by
  intro l
  induction l with
  | nil => intro z _; simp
  | cons x l' ih =>
    intro z hx
    rw [List.cons_append, scanRep_eq]
    have hnone : f (x :: (l' ++ z)) = none := by
      cases hf : f (x :: (l' ++ z)) with
      | none => rfl
      | some r =>
        obtain ⟨d, hd, hdt⟩ := hD _ _ hf
        simp only [List.head?_cons, Option.some.injEq] at hd
        subst hd
        rw [hx x (List.mem_cons_self _ _)] at hdt
        cases hdt
    simp only [hnone]
    rw [ih z (fun y hy => hx y (List.mem_cons_of_mem _ hy))]
    simp

/-- The follow-character invariant survives a scanner pass when every match
starts at a delimiter, the delimiters occur in no continuation, and every
replacement satisfies the invariant. -/
theorem scanRep_fb (c : Char) (L : List (List Char))
    (f : List Char → Option (List Char × Nat)) (isD : Char → Bool)
    (hD : ∀ s r, f s = some r → ∃ d, s.head? = some d ∧ isD d = true)
    (hdisj : ∀ l ∈ L, ∀ x ∈ l, isD x = false)
    (hrep : ∀ s rep k, fbChk c L s = true → f s = some (rep, k) → 1 ≤ k →
      fbChk c L rep = true) :
    ∀ s, fbChk c L s = true → fbChk c L (scanRep f s) = true := by
  intro s
  generalize hn : s.length = n
  induction n using Nat.strong_induction_on generalizing s with
  | _ n ih =>
    intro h
    rw [scanRep_eq]
    cases s with
    | nil => rfl
    | cons x rest =>
      have hrest : fbChk c L rest = true := fbChk_tail h
      have hadv : fbChk c L (x :: scanRep f rest) = true := by
        rw [fbChk_cons, Bool.and_eq_true]
        constructor
        · by_cases hx : x = c
          · subst hx
            rw [if_pos rfl, List.any_eq_true]
            have h1 := (Bool.and_eq_true _ _).mp h |>.1
            rw [if_pos rfl, List.any_eq_true] at h1
            obtain ⟨l, hl, hp⟩ := h1
            rw [List.isPrefixOf_iff_prefix] at hp
            obtain ⟨z, hz⟩ := hp
            refine ⟨l, hl, ?_⟩
            rw [List.isPrefixOf_iff_prefix, ← hz]
            rw [scanRep_copy f isD hD l z (fun y hy => hdisj l hl y hy)]
            exact List.prefix_append l _
          · rw [if_neg hx]
        · have : rest.length < n := by rw [← hn]; simp
          exact ih rest.length this rest rfl hrest
      cases hf : f (x :: rest) with
      | none => simpa only [hf] using hadv
      | some p =>
        obtain ⟨rep, k⟩ := p
        by_cases hk : 1 ≤ k
        · simp only [hf, if_pos hk]
          have hfb_rep : fbChk c L rep = true := hrep _ _ _ h hf hk
          have hfb_drop : fbChk c L ((x :: rest).drop k) = true := fbChk_drop h _
          have hlt : ((x :: rest).drop k).length < n := by
            rw [← hn]; simp [List.length_drop]; omega
          exact fbChk_append hfb_rep (ih _ hlt _ rfl hfb_drop)
        · simpa only [hf, if_neg hk] using hadv

/-- A weighted token count never grows under a scanner pass when every match
starts at a delimiter foreign to all tag continuations and every replacement
is token-sound and does not increase the weight of the consumed text. -/
theorem scanRep_tlW_le (w : Tg → Int)
    (f : List Char → Option (List Char × Nat)) (isD : Char → Bool)
    (hD : ∀ s r, f s = some r → ∃ d, s.head? = some d ∧ isD d = true)
    (hdisj : ∀ l ∈ tagTails, ∀ x ∈ l, isD x = false)
    (hrep : ∀ s rep k, fbTags s = true → f s = some (rep, k) → 1 ≤ k →
      fbTags rep = true ∧ tlW w rep + tlW w ((s : List Char).drop k) ≤ tlW w s) :
    ∀ s, fbTags s = true → tlW w (scanRep f s) ≤ tlW w s := by
  intro s
  generalize hn : s.length = n
  induction n using Nat.strong_induction_on generalizing s with
  | _ n ih =>
    intro h
    rw [scanRep_eq]
    cases s with
    | nil => rfl
    | cons x rest =>
      have hrest : fbTags rest = true := fbChk_tail h
      have hadv : tlW w (x :: scanRep f rest) ≤ tlW w (x :: rest) := by
        have hlt : rest.length < n := by rw [← hn]; simp
        have hihr := ih rest.length hlt rest rfl hrest
        by_cases hx : x = '<'
        · subst hx
          have h1 := (Bool.and_eq_true _ _).mp h |>.1
          rw [if_pos rfl, List.any_eq_true] at h1
          obtain ⟨l, hl, hp⟩ := h1
          rw [List.isPrefixOf_iff_prefix] at hp
          obtain ⟨z, hz⟩ := hp
          subst hz
          rw [scanRep_copy f isD hD l z (fun y hy => hdisj l hl y hy)]
          have hfbl : fbTags l = true :=
            fbChk_of_not_mem (no_lt_in_tagTails l hl)
          have hfbz : fbTags z = true := by
            have := fbChk_drop (c := '<') (L := tagTails) hrest l.length
            rwa [List.drop_left] at this
          have hzlt : z.length < n := by
            rw [← hn]; simp; omega
          have hihz := ih z.length hzlt z rfl hfbz
          unfold tlW
          rw [tl_cons_lt, tl_cons_lt, findTag_stable hl (scanRep f z) z]
          rw [tl_append hfbl, tl_append hfbl]
          simp only [List.map_append, List.sum_append]
          unfold tlW at hihz
          omega
        · unfold tlW
          rw [tl_cons_ne hx, tl_cons_ne hx]
          exact hihr
      cases hf : f (x :: rest) with
      | none => simpa only [hf] using hadv
      | some p =>
        obtain ⟨rep, k⟩ := p
        by_cases hk : 1 ≤ k
        · simp only [hf, if_pos hk]
          obtain ⟨hfb_rep, hw⟩ := hrep _ _ _ h hf hk
          have hfb_drop : fbTags ((x :: rest).drop k) = true := fbChk_drop h _
          have hlt : ((x :: rest).drop k).length < n := by
            rw [← hn]; simp [List.length_drop]; omega
          rw [tlW_append hfb_rep]
          have := ih _ hlt _ rfl hfb_drop
          omega
        · simpa only [hf, if_neg hk] using hadv

theorem tl_append_no_lt {a b : List Char} (h : '<' ∉ a) :
    tl (a ++ b) = tl b := by
  induction a with
  | nil => rfl
  | cons x a' ih =>
    rw [List.cons_append, tl_cons_ne (fun hc => h (hc ▸ List.mem_cons_self _ _))]
    exact ih (fun hc => h (List.mem_cons_of_mem _ hc))

theorem prefix_decomp {l s : List Char} (h : l.isPrefixOf s = true) :
    s = l ++ s.drop l.length := by
  rw [List.isPrefixOf_iff_prefix] at h
  obtain ⟨t, ht⟩ := h
  subst ht
  rw [List.drop_left]

/-- Decomposition of a `pairF` match. -/
theorem pairF_some {delim opn cls : List Char} {dchar : Char} {s rep : List Char}
    {k : Nat} (h : pairF delim opn cls dchar s = some (rep, k)) :
    ∃ body rest₂, s = delim ++ (body ++ (delim ++ rest₂)) ∧ body ≠ [] ∧
      (∀ x ∈ body, x ≠ dchar) ∧
      rep = opn ++ body ++ cls ∧ k = delim.length + body.length + delim.length := by
  unfold pairF at h
  by_cases h1 : delim.isPrefixOf s = true
  · rw [if_pos h1] at h
    by_cases h2 : (s.drop delim.length).takeWhile (fun x => x ≠ dchar) = []
    · rw [if_pos h2] at h; cases h
    · rw [if_neg h2] at h
      by_cases h3 : delim.isPrefixOf
          ((s.drop delim.length).dropWhile (fun x => x ≠ dchar)) = true
      · rw [if_pos h3] at h
        simp only [Option.some.injEq, Prod.mk.injEq] at h
        obtain ⟨hrep, hk⟩ := h
        refine ⟨(s.drop delim.length).takeWhile (fun x => x ≠ dchar),
          ((s.drop delim.length).dropWhile (fun x => x ≠ dchar)).drop delim.length,
          ?_, h2, ?_, hrep.symm, hk.symm⟩
        · conv_lhs => rw [prefix_decomp h1]
          congr 1
          conv_lhs => rw [← List.takeWhile_append_dropWhile
            (p := fun x => x ≠ dchar) (l := s.drop delim.length)]
          congr 1
          exact prefix_decomp h3
        · intro x hx
          have := List.mem_takeWhile_imp hx
          simpa using this
      · rw [if_neg h3] at h; cases h
  · rw [if_neg h1] at h; cases h

/-- A `pairF` match begins with the delimiter character. -/
theorem pairF_head {delim opn cls : List Char} {dchar : Char}
    (hdne : delim ≠ []) (hdall : ∀ x ∈ delim, x = dchar) :
    ∀ s r, pairF delim opn cls dchar s = some r →
      ∃ d, s.head? = some d ∧ d = dchar := by
  intro s r h
  obtain ⟨rep, k⟩ := r
  obtain ⟨body, rest₂, hs, _, _, _, _⟩ := pairF_some h
  cases delim with
  | nil => exact absurd rfl hdne
  | cons d0 dt =>
    refine ⟨d0, ?_, hdall d0 (List.mem_cons_self _ _)⟩
    rw [hs]
    rfl

/-- The replacement of a `pairF` match keeps the follow-character invariant. -/
theorem pairF_fb {c : Char} {L : List (List Char)} {delim opn cls : List Char}
    {dchar : Char} (hdne : delim ≠ []) (hdL : ∀ l ∈ L, dchar ∉ l)
    (hdall : ∀ x ∈ delim, x = dchar)
    (hopn : fbChk c L opn = true) (hcls : fbChk c L cls = true) :
    ∀ s rep k, fbChk c L s = true → pairF delim opn cls dchar s = some (rep, k) →
      1 ≤ k → fbChk c L rep = true := by
  intro s rep k hfb h _
  obtain ⟨body, rest₂, hs, _, _, hrep, _⟩ := pairF_some h
  subst hrep
  have hfb1 : fbChk c L (body ++ (delim ++ rest₂)) = true := by
    have := fbChk_drop hfb delim.length
    rw [hs, List.drop_left] at this
    exact this
  have hfbbody : fbChk c L body = true := by
    cases hd : delim with
    | nil => exact absurd hd hdne
    | cons d0 dt =>
      rw [hd] at hfb1
      have hd0 : d0 = dchar := hdall d0 (by rw [hd]; exact List.mem_cons_self _ _)
      rw [List.cons_append] at hfb1
      subst hd0
      exact fbChk_split hfb1 hdL
  exact fbChk_append (fbChk_append hopn hfbbody) hcls

theorem drop_append_exact {a b : List Char} {n : Nat} (h : n = a.length) :
    (a ++ b).drop n = b := List.drop_left' h.symm

/-- The replacement of a `pairF` match is token-sound and weight-neutral. -/
theorem pairF_tlW {w : Tg → Int} {delim opn cls : List Char} {dchar : Char}
    (hdne : delim ≠ []) (hdall : ∀ x ∈ delim, x = dchar) (hdlt : dchar ≠ '<')
    (hdTag : ∀ l ∈ tagTails, dchar ∉ l)
    (hopnT : fbTags opn = true) (hclsT : fbTags cls = true)
    (hsum : tlW w opn + tlW w cls = 0) :
    ∀ s rep k, fbTags s = true → pairF delim opn cls dchar s = some (rep, k) →
      1 ≤ k → fbTags rep = true ∧ tlW w rep + tlW w (s.drop k) ≤ tlW w s := by
  intro s rep k hfb h hk
  refine ⟨pairF_fb hdne hdTag hdall hopnT hclsT s rep k hfb h hk, ?_⟩
  obtain ⟨body, rest₂, hs, _, _, hrep, hkk⟩ := pairF_some h
  have hdnolt : '<' ∉ delim := fun hc => hdlt ((hdall '<' hc).symm ▸ rfl)
  have hfb1 : fbTags (body ++ (delim ++ rest₂)) = true := by
    have := fbChk_drop hfb delim.length
    rw [hs, List.drop_left] at this
    exact this
  have hfbbody : fbTags body = true := by
    cases hd : delim with
    | nil => exact absurd hd hdne
    | cons d0 dt =>
      rw [hd] at hfb1
      have hd0 : d0 = dchar := hdall d0 (by rw [hd]; exact List.mem_cons_self _ _)
      rw [List.cons_append] at hfb1
      subst hd0
      exact fbChk_split hfb1 hdTag
  have hdrop : s.drop k = rest₂ := by
    have h1 : s.drop delim.length = body ++ (delim ++ rest₂) := by
      rw [hs]; exact List.drop_left _ _
    have h2 : (body ++ (delim ++ rest₂)).drop body.length = delim ++ rest₂ :=
      List.drop_left _ _
    have h3 : (delim ++ rest₂).drop delim.length = rest₂ := List.drop_left _ _
    calc s.drop k = ((s.drop delim.length).drop body.length).drop delim.length := by
          rw [List.drop_drop, List.drop_drop]
          congr 1
          omega
      _ = rest₂ := by rw [h1, h2, h3]
  have hws : tlW w s = tlW w body + tlW w rest₂ := by
    unfold tlW
    rw [hs, tl_append_no_lt hdnolt, tl_append hfbbody, tl_append_no_lt hdnolt]
    simp
  have hwr : tlW w rep = tlW w opn + tlW w body + tlW w cls := by
    rw [hrep]
    unfold tlW
    rw [tl_append (fbChk_append hopnT hfbbody), tl_append hopnT]
    simp
    omega
  rw [hdrop, hws, hwr]
  omega

theorem fbChk_dropWhile {c : Char} {L : List (List Char)} {p : Char → Bool}
    {s : List Char} (h : fbChk c L s = true) :
    fbChk c L (s.dropWhile p) = true := by
  induction s with
  | nil => rfl
  | cons a rest ih =>
    rw [List.dropWhile_cons]
    by_cases hp : p a = true
    · simp only [hp, if_true]
      exact ih (fbChk_tail h)
    · simp only [hp]
      simpa using h

theorem trimEnd_decomp (s : List Char) :
    s = (s.reverse.dropWhile jsWs).reverse ++ (s.reverse.takeWhile jsWs).reverse := by
  conv_lhs => rw [← List.reverse_reverse s]
  rw [← List.reverse_append, List.takeWhile_append_dropWhile]

theorem fbChk_jsTrim {c : Char} {L : List (List Char)} {s : List Char}
    (hL : ∀ l ∈ L, ∀ x, l.getLast? = some x → jsWs x = false)
    (h : fbChk c L s = true) : fbChk c L (jsTrim s) = true := by
  unfold jsTrim
  have h1 : fbChk c L (s.dropWhile jsWs) = true := fbChk_dropWhile h
  have hdec := trimEnd_decomp (s.dropWhile jsWs)
  rw [hdec] at h1
  refine fbChk_prefix_ws h1 ?_ hL
  intro x hx
  rw [List.mem_reverse] at hx
  exact List.mem_takeWhile_imp hx

theorem tl_jsTrim {s : List Char} (hfb : fbTags s = true) :
    tl (jsTrim s) = tl s := by
  unfold jsTrim
  have hws1 : ∀ x ∈ s.takeWhile jsWs, x ≠ '<' := by
    intro x hx hc
    have := List.mem_takeWhile_imp hx
    rw [hc] at this
    cases this
  have h0 : tl s = tl (s.dropWhile jsWs) := by
    conv_lhs => rw [← List.takeWhile_append_dropWhile (p := jsWs) (l := s)]
    rw [tl_append_no_lt (fun hc => (hws1 '<' hc) rfl)]
  rw [h0]
  have h1 : fbTags (s.dropWhile jsWs) = true := fbChk_dropWhile hfb
  have hdec := trimEnd_decomp (s.dropWhile jsWs)
  have hfbtrim : fbTags ((s.dropWhile jsWs).reverse.dropWhile jsWs).reverse = true := by
    unfold fbTags
    rw [hdec] at h1
    refine fbChk_prefix_ws h1 ?_ (by decide)
    intro x hx
    rw [List.mem_reverse] at hx
    exact List.mem_takeWhile_imp hx
  conv_rhs => rw [hdec]
  rw [tl_append hfbtrim]
  have : tl ((s.dropWhile jsWs).reverse.takeWhile jsWs).reverse = [] := by
    apply tl_of_no_lt
    intro hc
    rw [List.mem_reverse] at hc
    have := List.mem_takeWhile_imp hc
    cases this
  rw [this, List.append_nil]

theorem tlW_nonneg {w : Tg → Int} (hw : ∀ t, 0 ≤ w t) (s : List Char) :
    0 ≤ tlW w s := by
  unfold tlW
  apply List.sum_nonneg
  intro x hx
  rw [List.mem_map] at hx
  obtain ⟨t, _, rfl⟩ := hx
  exact hw t


/-- Decomposition of a `linkF` match. -/
theorem linkF_some {s rep : List Char} {k : Nat} (h : linkF s = some (rep, k)) :
    ∃ txt url rest₂,
      s = '[' :: (txt ++ (']' :: '(' :: (url ++ (')' :: rest₂)))) ∧
      txt ≠ [] ∧ url ≠ [] ∧
      rep = aTagOf url txt ∧ k = 1 + txt.length + 2 + url.length + 1 := by
  unfold linkF at h
  cases s with
  | nil => cases h
  | cons c0 r =>
    simp only [] at h
    by_cases hc0 : c0 = '['
    · rw [if_pos hc0] at h
      by_cases htxt : r.takeWhile (fun x => x ≠ ']') = []
      · rw [if_pos htxt] at h; cases h
      · rw [if_neg htxt] at h
        by_cases hp1 : (str "](").isPrefixOf (r.dropWhile (fun x => x ≠ ']')) = true
        · rw [if_pos hp1] at h
          by_cases hurl : ((r.dropWhile (fun x => x ≠ ']')).drop 2).takeWhile
              (fun x => x ≠ ')') = []
          · rw [if_pos hurl] at h; cases h
          · rw [if_neg hurl] at h
            by_cases hp2 : [')'].isPrefixOf
                (((r.dropWhile (fun x => x ≠ ']')).drop 2).dropWhile
                  (fun x => x ≠ ')')) = true
            · rw [if_pos hp2] at h
              simp only [Option.some.injEq, Prod.mk.injEq] at h
              obtain ⟨hrep, hk⟩ := h
              refine ⟨r.takeWhile (fun x => x ≠ ']'),
                ((r.dropWhile (fun x => x ≠ ']')).drop 2).takeWhile (fun x => x ≠ ')'),
                (((r.dropWhile (fun x => x ≠ ']')).drop 2).dropWhile
                  (fun x => x ≠ ')')).drop 1,
                ?_, htxt, hurl, hrep.symm, hk.symm⟩
              rw [List.cons.injEq]
              refine ⟨hc0, ?_⟩
              have hd1 := prefix_decomp hp1
              have hd2 := prefix_decomp hp2
              conv_lhs => rw [← List.takeWhile_append_dropWhile
                (p := fun x => x ≠ ']') (l := r)]
              congr 1
              rw [hd1]
              have hstr : str "](" ++
                  ((r.dropWhile (fun x => x ≠ ']')).drop (str "](").length) =
                  ']' :: '(' :: ((r.dropWhile (fun x => x ≠ ']')).drop 2) := rfl
              rw [hstr]
              rw [List.cons.injEq]
              refine ⟨rfl, ?_⟩
              rw [List.cons.injEq]
              refine ⟨rfl, ?_⟩
              simp only [List.drop_succ_cons, List.drop_zero]
              conv_lhs => rw [← List.takeWhile_append_dropWhile
                (p := fun x => x ≠ ')')
                (l := (r.dropWhile (fun x => x ≠ ']')).drop 2)]
              rw [hd2]
              rfl
            · rw [if_neg hp2] at h; cases h
        · rw [if_neg hp1] at h; cases h
    · rw [if_neg hc0] at h; cases h

theorem sanitizeUrl_fb {c : Char} {L : List (List Char)} {url : List Char}
    (hLlast : ∀ l ∈ L, ∀ x, l.getLast? = some x → jsWs x = false)
    (hhash : fbChk c L ['#'] = true) (h : fbChk c L url = true) :
    fbChk c L (sanitizeUrl url) = true := by
  unfold sanitizeUrl
  simp only []
  split
  · exact fbChk_jsTrim hLlast h
  · exact hhash

theorem sanitizeUrl_tlW_le {w : Tg → Int} {url : List Char}
    (hnn : ∀ t, 0 ≤ w t) (h : fbTags url = true) :
    tlW w (sanitizeUrl url) ≤ tlW w url := by
  unfold sanitizeUrl
  simp only []
  split
  · unfold tlW
    rw [show tl (jsTrim url) = tl url from tl_jsTrim h]
  · have h0 : tlW w ['#'] = 0 := by
      unfold tlW
      rw [tl_of_no_lt (by decide)]
      rfl
    rw [h0]
    exact tlW_nonneg hnn url

/-- A `linkF` match begins with `[`. -/
theorem linkF_head : ∀ s r, linkF s = some r → ∃ d, s.head? = some d ∧ d = '[' := by
  intro s r h
  obtain ⟨rep, k⟩ := r
  obtain ⟨txt, url, rest₂, hs, _⟩ := linkF_some h
  exact ⟨'[', by rw [hs]; rfl, rfl⟩

/-- The replacement of a `linkF` match keeps the follow-character invariant. -/
theorem linkF_fb {c : Char} {L : List (List Char)}
    (hbr : ∀ l ∈ L, ']' ∉ l) (hpr : ∀ l ∈ L, ')' ∉ l)
    (hLlast : ∀ l ∈ L, ∀ x, l.getLast? = some x → jsWs x = false)
    (hlit1 : fbChk c L (str "<a href=\"") = true)
    (hlit2 : fbChk c L (str "\" target=\"_blank\" rel=\"noopener noreferrer\">") = true)
    (hlit3 : fbChk c L (str "</a>") = true)
    (hhash : fbChk c L ['#'] = true) :
    ∀ s rep k, fbChk c L s = true → linkF s = some (rep, k) → 1 ≤ k →
      fbChk c L rep = true := by
  intro s rep k hfb h _
  obtain ⟨txt, url, rest₂, hs, _, _, hrep, _⟩ := linkF_some h
  have hfbX : fbChk c L (txt ++ (']' :: '(' :: (url ++ (')' :: rest₂)))) = true := by
    rw [hs] at hfb
    exact fbChk_tail hfb
  have hfbtxt : fbChk c L txt = true := fbChk_split hfbX hbr
  have hfbY : fbChk c L (url ++ (')' :: rest₂)) = true := by
    have h1 := fbChk_drop hfbX (txt.length + 2)
    have : (txt ++ (']' :: '(' :: (url ++ (')' :: rest₂)))).drop (txt.length + 2) =
        url ++ (')' :: rest₂) := by
      rw [show txt.length + 2 = txt.length + 2 from rfl]
      rw [← List.drop_drop]
      rw [List.drop_left]
      rfl
    rwa [this] at h1
  have hfburl : fbChk c L url = true := fbChk_split hfbY hpr
  rw [hrep]
  unfold aTagOf
  exact fbChk_append (fbChk_append (fbChk_append (fbChk_append hlit1
    (sanitizeUrl_fb hLlast hhash hfburl)) hlit2) hfbtxt) hlit3

theorem tagTails_no_rbrkt : ∀ l ∈ tagTails, ']' ∉ l := by decide

theorem tagTails_no_rparen : ∀ l ∈ tagTails, ')' ∉ l := by decide

theorem tagTails_last_not_ws : ∀ l ∈ tagTails, ∀ x, l.getLast? = some x →
    jsWs x = false := by decide

/-- The replacement of a `linkF` match is token-sound and does not increase
any nonnegative weight with `w(aO) = w(aC) = 0`-sum. -/
theorem linkF_tlW {w : Tg → Int} (hwa : w Tg.aO + w Tg.aC = 0)
    (hnn : ∀ t, 0 ≤ w t) :
    ∀ s rep k, fbTags s = true → linkF s = some (rep, k) → 1 ≤ k →
      fbTags rep = true ∧ tlW w rep + tlW w (s.drop k) ≤ tlW w s := by
  intro s rep k hfb h hk
  refine ⟨linkF_fb tagTails_no_rbrkt tagTails_no_rparen tagTails_last_not_ws
    (by decide) (by decide) (by decide) (by decide) s rep k hfb h hk, ?_⟩
  obtain ⟨txt, url, rest₂, hs, _, _, hrep, hkk⟩ := linkF_some h
  have hfbX : fbTags (txt ++ (']' :: '(' :: (url ++ (')' :: rest₂)))) = true := by
    unfold fbTags
    have hfb' := hfb
    rw [hs] at hfb'
    exact fbChk_tail hfb'
  have hfbtxt : fbTags txt = true := fbChk_split hfbX tagTails_no_rbrkt
  have hfbY : fbTags (url ++ (')' :: rest₂)) = true := by
    have h1 := fbChk_drop hfbX (txt.length + 2)
    have heq : (txt ++ (']' :: '(' :: (url ++ (')' :: rest₂)))).drop (txt.length + 2) =
        url ++ (')' :: rest₂) := by
      rw [← List.drop_drop, List.drop_left]
      rfl
    rwa [heq] at h1
  have hfburl : fbTags url = true := fbChk_split hfbY tagTails_no_rparen
  have hdrop : s.drop k = rest₂ := by
    have e1 : k = (txt.length + (url.length + 1 + 1 + 1)) + 1 := by omega
    rw [hs, e1, List.drop_succ_cons]
    rw [← List.drop_drop, List.drop_left]
    rw [List.drop_succ_cons, List.drop_succ_cons]
    rw [← List.drop_drop, List.drop_left]
    rfl
  have hws : tlW w s = tlW w txt + tlW w url + tlW w rest₂ := by
    unfold tlW
    rw [hs]
    rw [tl_cons_ne (by decide)]
    rw [tl_append hfbtxt]
    rw [tl_cons_ne (by decide), tl_cons_ne (by decide)]
    rw [tl_append hfburl]
    rw [tl_cons_ne (by decide)]
    simp
    omega
  have hsan := sanitizeUrl_tlW_le hnn hfburl
  have hsanfb : fbTags (sanitizeUrl url) = true :=
    sanitizeUrl_fb tagTails_last_not_ws (by decide) hfburl
  have hwr : tlW w rep = w Tg.aO + tlW w (sanitizeUrl url) + tlW w txt + w Tg.aC := by
    rw [hrep]
    unfold aTagOf tlW
    rw [tl_append (fbChk_append (fbChk_append (fbChk_append (by decide) hsanfb)
      (by decide)) hfbtxt)]
    rw [tl_append (fbChk_append (fbChk_append (by decide) hsanfb) (by decide))]
    rw [tl_append (fbChk_append (by decide) hsanfb)]
    rw [tl_append (by decide)]
    rw [show tl (str "<a href=\"") = [Tg.aO] from by decide]
    rw [show tl (str "\" target=\"_blank\" rel=\"noopener noreferrer\">") = []
      from by decide]
    rw [show tl (str "</a>") = [Tg.aC] from by decide]
    simp
    omega
  rw [hdrop, hws, hwr]
  omega

/-! ## Fence-stage lemmas -/

theorem findSub_some {pat : List Char} : ∀ s i, findSub pat s = some i →
    pat.isPrefixOf (s.drop i) = true ∧ i ≤ s.length := by
  intro s
  induction s with
  | nil =>
    intro i h
    rw [findSub] at h
    by_cases hp : pat.isEmpty = true
    · rw [if_pos hp] at h
      cases h
      rw [List.isEmpty_iff] at hp
      subst hp
      exact ⟨rfl, Nat.le_refl _⟩
    · rw [if_neg hp] at h
      cases h
  | cons c rest ih =>
    intro i h
    rw [findSub] at h
    by_cases hp : pat.isPrefixOf (c :: rest) = true
    · rw [if_pos hp] at h
      cases h
      exact ⟨hp, Nat.zero_le _⟩
    · rw [if_neg hp] at h
      simp only [Option.map_eq_some'] at h
      obtain ⟨j, hj, rfl⟩ := h
      obtain ⟨h1, h2⟩ := ih j hj
      exact ⟨h1, by simpa using Nat.succ_le_succ h2⟩

/-- Decomposition of a `fenceF` match. -/
theorem fenceF_some {s rep : List Char} {k : Nat} (h : fenceF s = some (rep, k)) :
    ∃ wseg r2 i,
      s = tks ++ (wseg ++ ('\n' :: r2)) ∧
      tks.isPrefixOf (r2.drop i) = true ∧ i ≤ r2.length ∧
      (∀ x ∈ wseg, wordChar x = true) ∧
      rep = str "<pre><code>" ++ jsTrim (r2.take i) ++ str "</code></pre>" ∧
      k = 3 + wseg.length + 1 + i + 3 := by
  unfold fenceF at h
  by_cases h1 : tks.isPrefixOf s = true
  · rw [if_pos h1] at h
    simp only [] at h
    split at h
    case _ r2 heq =>
      split at h
      case _ i hfs =>
        simp only [Option.some.injEq, Prod.mk.injEq] at h
        obtain ⟨hrep, hk⟩ := h
        obtain ⟨hfsp, hfsl⟩ := findSub_some _ _ hfs
        refine ⟨(s.drop 3).takeWhile wordChar, r2, i, ?_, hfsp, hfsl, ?_,
          hrep.symm, hk.symm⟩
        · have h3 : s = tks ++ s.drop 3 := prefix_decomp h1
          conv_lhs => rw [h3]
          congr 1
          conv_lhs => rw [← List.takeWhile_append_dropWhile
            (p := wordChar) (l := s.drop 3)]
          rw [heq]
        · intro x hx
          exact List.mem_takeWhile_imp hx
      case _ => cases h
    case _ => cases h
  · rw [if_neg h1] at h
    cases h

/-- A `fenceF` match begins with a backtick. -/
theorem fenceF_head : ∀ s r, fenceF s = some r → ∃ d, s.head? = some d ∧ d = bt := by
  intro s r h
  obtain ⟨rep, k⟩ := r
  obtain ⟨wseg, r2, i, hs, _, _, _, _, _⟩ := fenceF_some h
  exact ⟨bt, by rw [hs]; rfl, rfl⟩

/-- The replacement of a `fenceF` match keeps the follow-character
invariant. -/
theorem fenceF_fb {c : Char} {L : List (List Char)}
    (hbt : ∀ l ∈ L, bt ∉ l)
    (hLlast : ∀ l ∈ L, ∀ x, l.getLast? = some x → jsWs x = false)
    (hlit1 : fbChk c L (str "<pre><code>") = true)
    (hlit2 : fbChk c L (str "</code></pre>") = true) :
    ∀ s rep k, fbChk c L s = true → fenceF s = some (rep, k) → 1 ≤ k →
      fbChk c L rep = true := by
  intro s rep k hfb h _
  obtain ⟨wseg, r2, i, hs, htk, _, _, hrep, _⟩ := fenceF_some h
  have hfbr2 : fbChk c L r2 = true := by
    have h1 := fbChk_drop hfb (3 + (wseg.length + 1))
    rw [hs, ← List.drop_drop, drop_append_exact (by rfl)] at h1
    rw [← List.drop_drop, drop_append_exact rfl, List.drop_succ_cons,
      List.drop_zero] at h1
    exact h1
  have hcap : fbChk c L (r2.take i) = true := by
    have hdrop_i : r2.drop i = bt :: (bt :: (bt :: ((r2.drop i).drop 3))) :=
      prefix_decomp htk
    have hdec : r2 = r2.take i ++ (bt :: (bt :: (bt :: ((r2.drop i).drop 3)))) := by
      conv_lhs => rw [← List.take_append_drop i r2, hdrop_i]
    rw [hdec] at hfbr2
    exact fbChk_split hfbr2 hbt
  rw [hrep]
  exact fbChk_append (fbChk_append hlit1 (fbChk_jsTrim hLlast hcap)) hlit2

/-! ## Per-line pass lemmas (headers, blockquotes) -/

theorem dropWhile_head_false {p : Char → Bool} :
    ∀ (l : List Char) {x : Char} {rest : List Char},
      l.dropWhile p = x :: rest → p x = false := by
  intro l
  induction l with
  | nil => intro x rest h; cases h
  | cons c r ih =>
    intro x rest h
    rw [List.dropWhile_cons] at h
    by_cases hp : p c = true
    · rw [if_pos hp] at h
      exact ih h
    · rw [if_neg hp] at h
      cases h
      exact Bool.not_eq_true _ ▸ (Bool.eq_false_iff.mpr hp)

/-- The follow-character invariant survives a per-line pass when the
boundary characters are foreign to the continuations and the character of
interest, and the per-line function preserves the invariant. -/
theorem mapSegsF_fb {c : Char} {L : List (List Char)}
    (hcterm : lineTerm c = false)
    (hterm : ∀ l ∈ L, ∀ x ∈ l, lineTerm x = false)
    (g : List Char → List Char)
    (hg : ∀ seg, fbChk c L seg = true → fbChk c L (g seg) = true) :
    ∀ fuel s, fbChk c L s = true → fbChk c L (mapSegsF g fuel s) = true := by
  intro fuel
  induction fuel with
  | zero => intro s h; exact hg s h
  | succ n ih =>
    intro s h
    rw [mapSegsF]
    split
    case _ hdw =>
      apply hg
      rw [← List.takeWhile_append_dropWhile (p := fun x => !lineTerm x) (l := s),
        hdw, List.append_nil] at h
      exact h
    case _ t rest hdw =>
      have hterm_t : lineTerm t = true := by
        have := dropWhile_head_false s hdw
        simpa using this
      have hsdec : s = s.takeWhile (fun x => !lineTerm x) ++ (t :: rest) := by
        conv_lhs => rw [← List.takeWhile_append_dropWhile
          (p := fun x => !lineTerm x) (l := s), hdw]
      rw [hsdec] at h
      have hseg : fbChk c L (s.takeWhile (fun x => !lineTerm x)) = true := by
        refine fbChk_split h ?_
        intro l hl hmem
        have := hterm l hl t hmem
        rw [hterm_t] at this
        cases this
      have hrest : fbChk c L rest = true := by
        have h1 := fbChk_drop h ((s.takeWhile (fun x => !lineTerm x)).length + 1)
        rw [← List.drop_drop, drop_append_exact rfl, List.drop_succ_cons,
          List.drop_zero] at h1
        exact h1
      refine fbChk_append (hg _ hseg) ?_
      rw [fbChk_cons, Bool.and_eq_true]
      refine ⟨?_, ih rest hrest⟩
      have htc : t ≠ c := by
        intro hc
        rw [hc, hcterm] at hterm_t
        cases hterm_t
      rw [if_neg htc]

/-- A weighted token count never grows under a per-line pass whose
per-line function preserves tags and never increases the weight. -/
theorem mapSegsF_tlW {w : Tg → Int} (g : List Char → List Char)
    (hg : ∀ seg, fbTags seg = true → fbTags (g seg) = true)
    (hgw : ∀ seg, fbTags seg = true → tlW w (g seg) ≤ tlW w seg) :
    ∀ fuel s, fbTags s = true → tlW w (mapSegsF g fuel s) ≤ tlW w s := by
  intro fuel
  induction fuel with
  | zero => intro s h; exact hgw s h
  | succ n ih =>
    intro s h
    rw [mapSegsF]
    split
    case _ hdw =>
      have hseq : s.takeWhile (fun x => !lineTerm x) = s := by
        conv_rhs => rw [← List.takeWhile_append_dropWhile
          (p := fun x => !lineTerm x) (l := s), hdw, List.append_nil]
      rw [hseq]
      exact hgw s h
    case _ t rest hdw =>
      have hterm_t : lineTerm t = true := by
        have := dropWhile_head_false s hdw
        simpa using this
      have htlt : t ≠ '<' := by
        intro hc
        rw [hc] at hterm_t
        cases hterm_t
      have hsdec : s = s.takeWhile (fun x => !lineTerm x) ++ (t :: rest) := by
        conv_lhs => rw [← List.takeWhile_append_dropWhile
          (p := fun x => !lineTerm x) (l := s), hdw]
      have h' := h
      rw [hsdec] at h'
      have hseg : fbTags (s.takeWhile (fun x => !lineTerm x)) = true := by
        refine fbChk_split h' ?_
        intro l hl hmem
        have hx := no_lt_in_tagTails l hl
        have : ∀ y ∈ l, lineTerm y = false := by
          intro y hy
          rcases List.mem_map.mp (by exact hl : l ∈ tagTails) with ⟨tg, _, rfl⟩
          revert hy
          have : ∀ z ∈ (tagStr tg).drop 1, lineTerm z = false := by
            cases tg <;> decide
          exact this y
        have := this t hmem
        rw [hterm_t] at this
        cases this
      have hrest : fbTags rest = true := by
        have h1 := fbChk_drop h' ((s.takeWhile (fun x => !lineTerm x)).length + 1)
        rw [← List.drop_drop, drop_append_exact rfl, List.drop_succ_cons,
          List.drop_zero] at h1
        exact h1
      conv_rhs => rw [hsdec]
      rw [tlW_append (hg _ hseg)]
      rw [tlW_append hseg]
      have e1 : tlW w (t :: mapSegsF g n rest) = tlW w (mapSegsF g n rest) := by
        unfold tlW
        rw [tl_cons_ne htlt]
      have e2 : tlW w (t :: rest) = tlW w rest := by
        unfold tlW
        rw [tl_cons_ne htlt]
      rw [e1, e2]
      have := ih rest hrest
      have := hgw _ hseg
      omega

theorem hSeg_fb {c : Char} {L : List (List Char)} {marker opn cls : List Char}
    (hopn : fbChk c L opn = true) (hcls : fbChk c L cls = true) :
    ∀ seg, fbChk c L seg = true → fbChk c L (hSeg marker opn cls seg) = true := by
  intro seg hfb
  unfold hSeg
  by_cases hp : marker.isPrefixOf seg = true
  · rw [if_pos hp]
    exact fbChk_append (fbChk_append hopn (fbChk_drop hfb _)) hcls
  · rw [if_neg hp]
    exact hfb

theorem hSeg_tlW {w : Tg → Int} {marker opn cls : List Char}
    (hmk : '<' ∉ marker) (hopnT : fbTags opn = true)
    (hsum : tlW w opn + tlW w cls = 0) :
    ∀ seg, fbTags seg = true → tlW w (hSeg marker opn cls seg) ≤ tlW w seg := by
  intro seg hfb
  unfold hSeg
  by_cases hp : marker.isPrefixOf seg = true
  · rw [if_pos hp]
    have hdec := prefix_decomp hp
    have hfbd : fbTags (seg.drop marker.length) = true := fbChk_drop hfb _
    have e1 : tlW w seg = tlW w (seg.drop marker.length) := by
      conv_lhs => rw [hdec]
      unfold tlW
      rw [tl_append_no_lt hmk]
    rw [e1, tlW_append (fbChk_append hopnT hfbd), tlW_append hopnT]
    omega
  · rw [if_neg hp]

theorem bqSeg_fb {c : Char} {L : List (List Char)}
    (hopn : fbChk c L (str "<blockquote>") = true)
    (hcls : fbChk c L (str "</blockquote>") = true) :
    ∀ seg, fbChk c L seg = true → fbChk c L (bqSeg seg) = true := by
  intro seg hfb
  unfold bqSeg
  by_cases hp : ((str "> ").isPrefixOf seg && !(seg.drop 2).isEmpty) = true
  · rw [if_pos hp]
    exact fbChk_append (fbChk_append hopn (fbChk_drop hfb _)) hcls
  · rw [if_neg hp]
    exact hfb

theorem bqSeg_tlW {w : Tg → Int} (hsum : w Tg.bqO + w Tg.bqC = 0) :
    ∀ seg, fbTags seg = true → tlW w (bqSeg seg) ≤ tlW w seg := by
  intro seg hfb
  unfold bqSeg
  by_cases hp : ((str "> ").isPrefixOf seg && !(seg.drop 2).isEmpty) = true
  · rw [if_pos hp]
    rw [Bool.and_eq_true] at hp
    have hpre : (str "> ").isPrefixOf seg = true := hp.1
    have hdec : seg = str "> " ++ seg.drop 2 := prefix_decomp hpre
    have hfbd : fbTags (seg.drop 2) = true := fbChk_drop hfb _
    have e1 : tlW w seg = tlW w (seg.drop 2) := by
      conv_lhs => rw [hdec]
      unfold tlW
      rw [tl_append_no_lt (by decide)]
    have hobq : fbTags (str "<blockquote>") = true := by decide
    rw [e1, tlW_append (fbChk_append hobq hfbd), tlW_append hobq]
    have ho : tlW w (str "<blockquote>") = w Tg.bqO := by
      unfold tlW
      rw [show tl (str "<blockquote>") = [Tg.bqO] from by decide]
      simp
    have hc : tlW w (str "</blockquote>") = w Tg.bqC := by
      unfold tlW
      rw [show tl (str "</blockquote>") = [Tg.bqC] from by decide]
      simp
    rw [ho, hc]
    omega
  · rw [if_neg hp]

/-! ## Properties of `escapeHtml` -/

theorem escapeHtml_cons (c : Char) (s : List Char) :
    escapeHtml (c :: s) = escapeHtmlChar c ++ escapeHtml s := by
  unfold escapeHtml
  rw [List.map_cons, List.flatten_cons]

theorem escapeHtmlChar_props (c : Char) :
    '<' ∉ escapeHtmlChar c ∧ '>' ∉ escapeHtmlChar c ∧ '"' ∉ escapeHtmlChar c ∧
    apos ∉ escapeHtmlChar c ∧ fbChk '&' entTails (escapeHtmlChar c) = true := by
  unfold escapeHtmlChar
  split_ifs with h1 h2 h3 h4 h5
  · exact ⟨by decide, by decide, by decide, by decide, by decide⟩
  · exact ⟨by decide, by decide, by decide, by decide, by decide⟩
  · exact ⟨by decide, by decide, by decide, by decide, by decide⟩
  · exact ⟨by decide, by decide, by decide, by decide, by decide⟩
  · exact ⟨by decide, by decide, by decide, by decide, by decide⟩
  · refine ⟨?_, ?_, ?_, ?_, ?_⟩
    · intro hm
      rw [List.mem_singleton] at hm
      exact h2 hm.symm
    · intro hm
      rw [List.mem_singleton] at hm
      exact h3 hm.symm
    · intro hm
      rw [List.mem_singleton] at hm
      exact h4 hm.symm
    · intro hm
      rw [List.mem_singleton] at hm
      exact h5 hm.symm
    · rw [show ([c] : List Char) = c :: [] from rfl, fbChk_cons]
      rw [if_neg h1]
      rfl

theorem escapeHtml_no_lt (s : List Char) : '<' ∉ escapeHtml s := by
  induction s with
  | nil => intro h; cases h
  | cons c rest ih =>
    rw [escapeHtml_cons]
    intro hm
    rcases List.mem_append.mp hm with h | h
    · exact (escapeHtmlChar_props c).1 h
    · exact ih h

theorem escapeHtml_no_gt (s : List Char) : '>' ∉ escapeHtml s := by
  induction s with
  | nil => intro h; cases h
  | cons c rest ih =>
    rw [escapeHtml_cons]
    intro hm
    rcases List.mem_append.mp hm with h | h
    · exact (escapeHtmlChar_props c).2.1 h
    · exact ih h

theorem escapeHtml_no_quot (s : List Char) : '"' ∉ escapeHtml s := by
  induction s with
  | nil => intro h; cases h
  | cons c rest ih =>
    rw [escapeHtml_cons]
    intro hm
    rcases List.mem_append.mp hm with h | h
    · exact (escapeHtmlChar_props c).2.2.1 h
    · exact ih h

theorem escapeHtml_no_apos (s : List Char) : apos ∉ escapeHtml s := by
  induction s with
  | nil => intro h; cases h
  | cons c rest ih =>
    rw [escapeHtml_cons]
    intro hm
    rcases List.mem_append.mp hm with h | h
    · exact (escapeHtmlChar_props c).2.2.2.1 h
    · exact ih h

/-- Every `&` of the escaped text begins one of the five escape
entities. -/
theorem escapeHtml_fbEnts (s : List Char) : fbEnts (escapeHtml s) = true := by
  induction s with
  | nil => rfl
  | cons c rest ih =>
    rw [escapeHtml_cons]
    exact fbChk_append (escapeHtmlChar_props c).2.2.2.2 ih

/-- The escaped text trivially satisfies the tag invariant: it contains no
`<` at all. -/
theorem escapeHtml_fbTags (s : List Char) : fbTags (escapeHtml s) = true :=
  fbChk_of_not_mem (escapeHtml_no_lt s)

theorem escapeHtml_tlW (w : Tg → Int) (s : List Char) :
    tlW w (escapeHtml s) = 0 :=
  tlW_of_no_lt (escapeHtml_no_lt s)

/-! ## List-grouping pass lemmas -/

theorem intercalate_one (d a : List Char) : List.intercalate d [a] = a := by
  unfold List.intercalate
  rw [show List.intersperse d [a] = [a] from rfl]
  simp

theorem intercalate_two (d a b : List Char) (l : List (List Char)) :
    List.intercalate d (a :: b :: l) =
      a ++ (d ++ List.intercalate d (b :: l)) := by
  unfold List.intercalate
  rw [show List.intersperse d (a :: b :: l) =
    a :: d :: List.intersperse d (b :: l) from rfl]
  rw [List.flatten_cons, List.flatten_cons]

theorem splitNl_ne_nil : ∀ s, splitNl s ≠ [] := by
  intro s
  cases s with
  | nil => intro h; cases h
  | cons c rest =>
    rw [splitNl]
    by_cases hc : c = '\n'
    · rw [if_pos hc]; intro h; cases h
    · rw [if_neg hc]; intro h; cases h

/-- `split("\n")` followed by joining with `"\n"` is the identity. -/
theorem intercalate_splitNl : ∀ s, List.intercalate ['\n'] (splitNl s) = s := by
  intro s
  induction s with
  | nil => rfl
  | cons c rest ih =>
    rw [splitNl]
    by_cases hc : c = '\n'
    · rw [if_pos hc]
      cases hr : splitNl rest with
      | nil => exact absurd hr (splitNl_ne_nil rest)
      | cons a t =>
        rw [intercalate_two]
        rw [← hr, ih, hc]
        rfl
    · rw [if_neg hc]
      cases hr : splitNl rest with
      | nil => exact absurd hr (splitNl_ne_nil rest)
      | cons a t =>
        simp only [hr, List.headI_cons, List.tail_cons]
        cases t with
        | nil =>
          rw [intercalate_one]
          rw [hr, intercalate_one] at ih
          rw [ih]
        | cons b t2 =>
          rw [intercalate_two]
          rw [hr, intercalate_two] at ih
          rw [List.cons_append, ih]

/-- Every line of the split satisfies the follow-character invariant when
no continuation contains a newline. -/
theorem splitNl_fb {c : Char} {L : List (List Char)}
    (hnl : ∀ l ∈ L, '\n' ∉ l) :
    ∀ s, fbChk c L s = true → ∀ line ∈ splitNl s, fbChk c L line = true := by
  intro s
  induction s with
  | nil =>
    intro _ line hline
    rw [splitNl] at hline
    rw [List.mem_singleton] at hline
    subst hline
    rfl
  | cons a rest ih =>
    intro h line hline
    have hrest : fbChk c L rest = true := fbChk_tail h
    rw [splitNl] at hline
    by_cases ha : a = '\n'
    · rw [if_pos ha] at hline
      rcases List.mem_cons.mp hline with rfl | hm
      · rfl
      · exact ih hrest line hm
    · rw [if_neg ha] at hline
      rcases List.mem_cons.mp hline with rfl | hm
      · rw [fbChk_cons, Bool.and_eq_true]
        cases hr : splitNl rest with
        | nil => exact absurd hr (splitNl_ne_nil rest)
        | cons b t =>
          simp only [List.headI_cons]
          have hbfb : fbChk c L b = true :=
            ih hrest b (by rw [hr]; exact List.mem_cons_self _ _)
          refine ⟨?_, hbfb⟩
          by_cases hac : a = c
          · rw [if_pos hac]
            subst hac
            have h1 := (Bool.and_eq_true _ _).mp h |>.1
            rw [if_pos rfl, List.any_eq_true] at h1
            obtain ⟨l, hl, hp⟩ := h1
            rw [List.any_eq_true]
            refine ⟨l, hl, ?_⟩
            rw [List.isPrefixOf_iff_prefix] at hp ⊢
            have hre : rest = List.intercalate ['\n'] (b :: t) := by
              rw [← hr, intercalate_splitNl]
            cases t with
            | nil =>
              rw [intercalate_one] at hre
              rwa [← hre]
            | cons b2 t2 =>
              rw [intercalate_two] at hre
              rw [hre] at hp
              rw [show (['\n'] ++ List.intercalate ['\n'] (b2 :: t2) : List Char) =
                '\n' :: List.intercalate ['\n'] (b2 :: t2) from rfl] at hp
              exact prefix_cut hp (hnl l hl)
          · rw [if_neg hac]
      · cases hr : splitNl rest with
        | nil => exact absurd hr (splitNl_ne_nil rest)
        | cons b t =>
          rw [hr, List.tail_cons] at hm
          exact ih hrest line (by rw [hr]; exact List.mem_cons_of_mem _ hm)

/-- Joining invariant lines with `"\n"` preserves the invariant. -/
theorem intercalate_fb {c : Char} {L : List (List Char)} (hc : c ≠ '\n') :
    ∀ lines, (∀ line ∈ lines, fbChk c L line = true) →
      fbChk c L (List.intercalate ['\n'] lines) = true := by
  intro lines
  induction lines with
  | nil => intro _; rfl
  | cons a t ih =>
    intro hall
    cases t with
    | nil =>
      rw [intercalate_one]
      exact hall a (List.mem_cons_self _ _)
    | cons b t2 =>
      rw [intercalate_two]
      refine fbChk_append (hall a (List.mem_cons_self _ _)) ?_
      rw [show (['\n'] ++ List.intercalate ['\n'] (b :: t2) : List Char) =
        '\n' :: List.intercalate ['\n'] (b :: t2) from rfl]
      rw [fbChk_cons, Bool.and_eq_true]
      refine ⟨?_, ih (fun l hl => hall l (List.mem_cons_of_mem _ hl))⟩
      rw [if_neg (fun hx => hc hx.symm)]

/-- Token weights of a `"\n"`-join are the sum of the per-line weights. -/
theorem intercalate_tlW {w : Tg → Int} :
    ∀ lines, (∀ line ∈ lines, fbTags line = true) →
      tlW w (List.intercalate ['\n'] lines) =
        (lines.map (tlW w)).sum := by
  intro lines
  induction lines with
  | nil =>
    intro _
    rfl
  | cons a t ih =>
    intro hall
    cases t with
    | nil =>
      rw [intercalate_one]
      simp
    | cons b t2 =>
      rw [intercalate_two]
      rw [tlW_append (hall a (List.mem_cons_self _ _))]
      rw [show (['\n'] ++ List.intercalate ['\n'] (b :: t2) : List Char) =
        '\n' :: List.intercalate ['\n'] (b :: t2) from rfl]
      have e1 : tlW w ('\n' :: List.intercalate ['\n'] (b :: t2)) =
          tlW w (List.intercalate ['\n'] (b :: t2)) := by
        unfold tlW
        rw [tl_cons_ne (by decide)]
      rw [e1, ih (fun l hl => hall l (List.mem_cons_of_mem _ hl))]
      simp

theorem isUlItem_decomp {l : List Char} (h : isUlItem l = true) :
    ∃ c rest, l = c :: ' ' :: rest ∧ (c = '*' ∨ c = '-') := by
  unfold isUlItem at h
  split at h
  case _ c rest =>
    refine ⟨c, rest, rfl, ?_⟩
    rw [Bool.and_eq_true, Bool.and_eq_true, Bool.or_eq_true] at h
    rcases h.1.1 with h' | h'
    · exact Or.inl (by simpa using h')
    · exact Or.inr (by simpa using h')
  case _ => cases h

theorem isOlItem_decomp {l : List Char} (h : isOlItem l = true) :
    l.drop (l.takeWhile isDigitCh).length =
      '.' :: ' ' :: l.drop ((l.takeWhile isDigitCh).length + 2) := by
  unfold isOlItem at h
  simp only [] at h
  rw [Bool.and_eq_true] at h
  obtain ⟨_, h2⟩ := h
  split at h2
  case _ r heq =>
    have hr : l.drop ((l.takeWhile isDigitCh).length + 2) = r := by
      rw [← List.drop_drop, heq]
      rfl
    rw [heq, hr]
  case _ => cases h2

theorem ulLi_tl {l : List Char} (h : isUlItem l = true) :
    tl (l.drop 2) = tl l := by
  obtain ⟨c, rest, hdec, hc⟩ := isUlItem_decomp h
  rw [hdec]
  rw [List.drop_succ_cons, List.drop_succ_cons, List.drop_zero]
  have hcne : c ≠ '<' := by
    rcases hc with rfl | rfl <;> decide
  rw [tl_cons_ne hcne, tl_cons_ne (by decide)]

theorem olLi_tl {l : List Char} (h : isOlItem l = true) :
    tl (l.drop ((l.takeWhile isDigitCh).length + 2)) = tl l := by
  have hdec := isOlItem_decomp h
  have hfull : l = l.takeWhile isDigitCh ++
      ('.' :: ' ' :: l.drop ((l.takeWhile isDigitCh).length + 2)) := by
    have e : (l.takeWhile isDigitCh ++ l.dropWhile isDigitCh).drop
        (l.takeWhile isDigitCh).length = l.dropWhile isDigitCh :=
      drop_append_exact rfl
    rw [List.takeWhile_append_dropWhile] at e
    conv_lhs => rw [← List.takeWhile_append_dropWhile (p := isDigitCh) (l := l)]
    congr 1
    rw [← e]
    exact hdec
  have hnolt : '<' ∉ l.takeWhile isDigitCh := by
    intro hm
    have := List.mem_takeWhile_imp hm
    cases this
  conv_rhs => rw [hfull]
  rw [tl_append_no_lt hnolt, tl_cons_ne (by decide), tl_cons_ne (by decide)]

/-- Every line the list-grouping loop emits satisfies the follow-character
invariant when every input line does. -/
theorem listLoop_fb {c : Char} {L : List (List Char)}
    (hulO : fbChk c L (str "<ul>") = true) (hulC : fbChk c L (str "</ul>") = true)
    (holO : fbChk c L (str "<ol>") = true) (holC : fbChk c L (str "</ol>") = true)
    (hliO : fbChk c L (str "<li>") = true) (hliC : fbChk c L (str "</li>") = true) :
    ∀ lines inUl inOl, (∀ l ∈ lines, fbChk c L l = true) →
      ∀ out ∈ listLoop inUl inOl lines, fbChk c L out = true := by
  intro lines
  induction lines with
  | nil =>
    intro inUl inOl _ out hout
    rw [listLoop] at hout
    rcases List.mem_append.mp hout with hm | hm
    · cases inUl
      · simp at hm
      · rw [if_pos rfl, List.mem_singleton] at hm
        subst hm
        exact hulC
    · cases inOl
      · simp at hm
      · rw [if_pos rfl, List.mem_singleton] at hm
        subst hm
        exact holC
  | cons l rest ih =>
    intro inUl inOl hall out hout
    have hl : fbChk c L l = true := hall l (List.mem_cons_self _ _)
    have hrest : ∀ x ∈ rest, fbChk c L x = true :=
      fun x hx => hall x (List.mem_cons_of_mem _ hx)
    rw [listLoop] at hout
    by_cases hU : isUlItem l = true
    · rw [if_pos hU] at hout
      rcases List.mem_append.mp hout with hm | hm
      · cases inUl
        · rw [if_neg (by simp), List.mem_singleton] at hm
          subst hm
          exact hulO
        · simp at hm
      · rcases List.mem_cons.mp hm with rfl | hm2
        · exact fbChk_append (fbChk_append hliO (fbChk_drop hl _)) hliC
        · exact ih true inOl hrest out hm2
    · rw [if_neg hU] at hout
      by_cases hO : isOlItem l = true
      · rw [if_pos hO] at hout
        rcases List.mem_append.mp hout with hm | hm
        · cases inOl
          · rw [if_neg (by simp), List.mem_singleton] at hm
            subst hm
            exact holO
          · simp at hm
        · rcases List.mem_cons.mp hm with rfl | hm2
          · exact fbChk_append (fbChk_append hliO (fbChk_drop hl _)) hliC
          · exact ih inUl true hrest out hm2
      · rw [if_neg hO] at hout
        rcases List.mem_append.mp hout with hm | hm
        · rcases List.mem_append.mp hm with hm1 | hm1
          · cases inUl
            · simp at hm1
            · rw [if_pos rfl, List.mem_singleton] at hm1
              subst hm1
              exact hulC
          · cases inOl
            · simp at hm1
            · rw [if_pos rfl, List.mem_singleton] at hm1
              subst hm1
              exact holC
        · rcases List.mem_cons.mp hm with rfl | hm2
          · exact hl
          · exact ih false false hrest out hm2


/-- The list-grouping loop is weight-neutral when the list tags carry no
weight. -/
theorem listLoop_tlW {w : Tg → Int}
    (hw : w Tg.ulO = 0 ∧ w Tg.ulC = 0 ∧ w Tg.olO = 0 ∧ w Tg.olC = 0 ∧
      w Tg.liO = 0 ∧ w Tg.liC = 0) :
    ∀ lines inUl inOl, (∀ l ∈ lines, fbTags l = true) →
      ((listLoop inUl inOl lines).map (tlW w)).sum =
        (lines.map (tlW w)).sum := by
  have hulO : tlW w (str "<ul>") = 0 := by
    unfold tlW
    rw [show tl (str "<ul>") = [Tg.ulO] from by decide]
    simp [hw.1]
  have hulC : tlW w (str "</ul>") = 0 := by
    unfold tlW
    rw [show tl (str "</ul>") = [Tg.ulC] from by decide]
    simp [hw.2.1]
  have holO : tlW w (str "<ol>") = 0 := by
    unfold tlW
    rw [show tl (str "<ol>") = [Tg.olO] from by decide]
    simp [hw.2.2.1]
  have holC : tlW w (str "</ol>") = 0 := by
    unfold tlW
    rw [show tl (str "</ol>") = [Tg.olC] from by decide]
    simp [hw.2.2.2.1]
  have hliO : tlW w (str "<li>") = 0 := by
    unfold tlW
    rw [show tl (str "<li>") = [Tg.liO] from by decide]
    simp [hw.2.2.2.2.1]
  have hliC : tlW w (str "</li>") = 0 := by
    unfold tlW
    rw [show tl (str "</li>") = [Tg.liC] from by decide]
    simp [hw.2.2.2.2.2]
  have hfbLi : fbTags (str "<li>") = true := by decide
  have hcl : ∀ inUl inOl : Bool,
      (((if inUl then [str "</ul>"] else []) ++
        (if inOl then [str "</ol>"] else []) : List (List Char)).map
          (tlW w)).sum = 0 := by
    intro inUl inOl
    cases inUl <;> cases inOl <;> simp [hulC, holC]
  intro lines
  induction lines with
  | nil =>
    intro inUl inOl _
    rw [listLoop]
    rw [hcl inUl inOl]
    rfl
  | cons l rest ih =>
    intro inUl inOl hall
    have hfl : fbTags l = true := hall l (List.mem_cons_self _ _)
    have hrest : ∀ x ∈ rest, fbTags x = true :=
      fun x hx => hall x (List.mem_cons_of_mem _ hx)
    rw [listLoop]
    by_cases hU : isUlItem l = true
    · rw [if_pos hU]
      have hli : tlW w (ulLi l) = tlW w l := by
        unfold ulLi
        have hfbd : fbTags (l.drop 2) = true := fbChk_drop hfl 2
        rw [tlW_append (fbChk_append hfbLi hfbd), tlW_append hfbLi]
        rw [hliO, hliC]
        have : tlW w (l.drop 2) = tlW w l := by
          unfold tlW
          rw [ulLi_tl hU]
        rw [this]
        omega
      rw [List.map_append, List.sum_append, List.map_cons, List.sum_cons]
      rw [hli, ih true inOl hrest]
      have hopen : (((if inUl then [] else [str "<ul>"]) : List (List Char)).map
          (tlW w)).sum = 0 := by
        cases inUl <;> simp [hulO]
      rw [hopen]
      simp
    · rw [if_neg hU]
      by_cases hO : isOlItem l = true
      · rw [if_pos hO]
        have hli : tlW w (olLi l) = tlW w l := by
          unfold olLi
          have hfbd : fbTags (l.drop ((l.takeWhile isDigitCh).length + 2)) = true :=
            fbChk_drop hfl _
          rw [tlW_append (fbChk_append hfbLi hfbd), tlW_append hfbLi]
          rw [hliO, hliC]
          have : tlW w (l.drop ((l.takeWhile isDigitCh).length + 2)) = tlW w l := by
            unfold tlW
            rw [olLi_tl hO]
          rw [this]
          omega
        rw [List.map_append, List.sum_append, List.map_cons, List.sum_cons]
        rw [hli, ih inUl true hrest]
        have hopen : (((if inOl then [] else [str "<ol>"]) : List (List Char)).map
            (tlW w)).sum = 0 := by
          cases inOl <;> simp [holO]
        rw [hopen]
        simp
      · rw [if_neg hO]
        rw [List.map_append, List.sum_append]
        rw [List.map_append, List.sum_append, List.map_cons, List.sum_cons]
        rw [ih false false hrest]
        have h1 : (((if inUl then [str "</ul>"] else []) : List (List Char)).map
            (tlW w)).sum = 0 := by
          cases inUl <;> simp [hulC]
        have h2 : (((if inOl then [str "</ol>"] else []) : List (List Char)).map
            (tlW w)).sum = 0 := by
          cases inOl <;> simp [holC]
        rw [h1, h2]
        simp

/-- `listPass` preserves the follow-character invariant. -/
theorem listPass_fb {c : Char} {L : List (List Char)}
    (hc : c ≠ '\n') (hnl : ∀ l ∈ L, '\n' ∉ l)
    (hulO : fbChk c L (str "<ul>") = true) (hulC : fbChk c L (str "</ul>") = true)
    (holO : fbChk c L (str "<ol>") = true) (holC : fbChk c L (str "</ol>") = true)
    (hliO : fbChk c L (str "<li>") = true) (hliC : fbChk c L (str "</li>") = true) :
    ∀ s, fbChk c L s = true → fbChk c L (listPass s) = true := by
  intro s h
  unfold listPass
  exact intercalate_fb hc _
    (listLoop_fb hulO hulC holO holC hliO hliC (splitNl s) false false
      (splitNl_fb hnl s h))

/-- `listPass` is weight-neutral for weights vanishing on the list tags. -/
theorem listPass_tlW {w : Tg → Int}
    (hw : w Tg.ulO = 0 ∧ w Tg.ulC = 0 ∧ w Tg.olO = 0 ∧ w Tg.olC = 0 ∧
      w Tg.liO = 0 ∧ w Tg.liC = 0) :
    ∀ s, fbTags s = true → tlW w (listPass s) ≤ tlW w s := by
  intro s h
  unfold listPass
  have hlines : ∀ line ∈ splitNl s, fbTags line = true :=
    splitNl_fb (by decide) s h
  have hout : ∀ out ∈ listLoop false false (splitNl s), fbTags out = true :=
    listLoop_fb (by decide) (by decide) (by decide) (by decide) (by decide)
      (by decide) (splitNl s) false false hlines
  rw [intercalate_tlW _ hout]
  rw [listLoop_tlW hw (splitNl s) false false hlines]
  rw [← intercalate_tlW _ hlines]
  rw [intercalate_splitNl]

/-! ## `replaceNewlinesOutsideBlocks` lemmas -/

theorem take_app {α : Type} : ∀ (a b : List α) (n : Nat),
    (a ++ b).take (a.length + n) = a ++ b.take n := by
  intro a
  induction a with
  | nil => intro b n; simp
  | cons x a' ih =>
    intro b n
    rw [List.cons_append, List.length_cons]
    rw [show a'.length + 1 + n = (a'.length + n) + 1 from by omega]
    rw [List.take_succ_cons, ih]
    rfl

/-- The verbatim copy of a block match: structure and final character. -/
theorem take_block_last {s opn cls : List Char} {i : Nat}
    (hpre : opn.isPrefixOf s = true)
    (hfs : cls.isPrefixOf ((s.drop opn.length).drop i) = true)
    (hlen : i ≤ (s.drop opn.length).length)
    (hcne : cls ≠ []) :
    s.take (opn.length + i + cls.length) =
      opn ++ ((s.drop opn.length).take i ++ cls) ∧
    (s.take (opn.length + i + cls.length)).getLast? = cls.getLast? := by
  have hdec1 : s = opn ++ s.drop opn.length := prefix_decomp hpre
  have hdec2 : (s.drop opn.length).drop i =
      cls ++ ((s.drop opn.length).drop i).drop cls.length := prefix_decomp hfs
  have hdec3 : s.drop opn.length =
      (s.drop opn.length).take i ++
        (cls ++ ((s.drop opn.length).drop i).drop cls.length) := by
    conv_lhs => rw [← List.take_append_drop i (s.drop opn.length), hdec2]
  have htk : s.take (opn.length + i + cls.length) =
      opn ++ ((s.drop opn.length).take i ++ cls) := by
    conv_lhs => rw [hdec1, hdec3]
    rw [show opn.length + i + cls.length = opn.length + (i + cls.length) from by
      omega]
    rw [take_app]
    congr 1
    have hlt : ((s.drop opn.length).take i).length = i := by
      rw [List.length_take]
      omega
    rw [show i + cls.length = ((s.drop opn.length).take i).length + cls.length from by
      rw [hlt]]
    rw [take_app]
    congr 1
    exact List.take_left _ _
  refine ⟨htk, ?_⟩
  rw [htk]
  rw [List.getLast?_append_of_ne_nil opn (by
    intro hc
    exact hcne (List.append_eq_nil.mp hc).2)]
  rw [List.getLast?_append_of_ne_nil _ hcne]

theorem rnobBr_spec {s rep : List Char} {k : Nat} (h : rnobBr s = some (rep, k)) :
    rep = str "<br>" ∧ k = 1 ∧ ∃ r, s = '\n' :: r := by
  unfold rnobBr at h
  split at h
  case _ r =>
    simp only [Option.some.injEq, Prod.mk.injEq] at h
    exact ⟨h.1.symm, h.2.symm, r, rfl⟩
  case _ => cases h

theorem rnobOl_spec {s rep : List Char} {k : Nat} (h : rnobOl s = some (rep, k)) :
    (rep = s.take k ∧ rep.getLast? = some '>' ∧ ∃ r, s = '<' :: r) ∨
    (rep = str "<br>" ∧ k = 1 ∧ ∃ r, s = '\n' :: r) := by
  unfold rnobOl at h
  by_cases hp : (str "<ol>").isPrefixOf s = true
  · rw [if_pos hp] at h
    split at h
    case _ i hfs =>
      simp only [Option.some.injEq, Prod.mk.injEq] at h
      obtain ⟨hrep, hk⟩ := h
      obtain ⟨hfp, hfl⟩ := findSub_some _ _ hfs
      have hblk : s.take ((str "<ol>").length + i + (str "</ol>").length) =
          str "<ol>" ++ ((s.drop (str "<ol>").length).take i ++ str "</ol>") ∧
          (s.take ((str "<ol>").length + i +
            (str "</ol>").length)).getLast? = (str "</ol>").getLast? :=
        take_block_last hp hfp hfl (by decide)
      refine Or.inl ⟨by rw [← hrep, ← hk], ?_, ?_⟩
      · rw [← hrep]
        rw [show (4 + i + 5 : Nat) =
          (str "<ol>").length + i + (str "</ol>").length from rfl]
        rw [hblk.2]
        decide
      · cases s with
        | nil => exact absurd hp (by decide)
        | cons c0 r0 =>
          refine ⟨r0, ?_⟩
          rw [List.isPrefixOf_iff_prefix] at hp
          rw [show (str "<ol>" : List Char) = '<' :: str "ol>" from by decide] at hp
          rw [List.cons_prefix_cons] at hp
          rw [← hp.1]
    case _ hfs =>
      exact Or.inr (rnobBr_spec h)
  · rw [if_neg hp] at h
    exact Or.inr (rnobBr_spec h)

theorem rnobUl_spec {s rep : List Char} {k : Nat} (h : rnobUl s = some (rep, k)) :
    (rep = s.take k ∧ rep.getLast? = some '>' ∧ ∃ r, s = '<' :: r) ∨
    (rep = str "<br>" ∧ k = 1 ∧ ∃ r, s = '\n' :: r) := by
  unfold rnobUl at h
  by_cases hp : (str "<ul>").isPrefixOf s = true
  · rw [if_pos hp] at h
    split at h
    case _ i hfs =>
      simp only [Option.some.injEq, Prod.mk.injEq] at h
      obtain ⟨hrep, hk⟩ := h
      obtain ⟨hfp, hfl⟩ := findSub_some _ _ hfs
      have hblk : s.take ((str "<ul>").length + i + (str "</ul>").length) =
          str "<ul>" ++ ((s.drop (str "<ul>").length).take i ++ str "</ul>") ∧
          (s.take ((str "<ul>").length + i +
            (str "</ul>").length)).getLast? = (str "</ul>").getLast? :=
        take_block_last hp hfp hfl (by decide)
      refine Or.inl ⟨by rw [← hrep, ← hk], ?_, ?_⟩
      · rw [← hrep]
        rw [show (4 + i + 5 : Nat) =
          (str "<ul>").length + i + (str "</ul>").length from rfl]
        rw [hblk.2]
        decide
      · cases s with
        | nil => exact absurd hp (by decide)
        | cons c0 r0 =>
          refine ⟨r0, ?_⟩
          rw [List.isPrefixOf_iff_prefix] at hp
          rw [show (str "<ul>" : List Char) = '<' :: str "ul>" from by decide] at hp
          rw [List.cons_prefix_cons] at hp
          rw [← hp.1]
    case _ hfs =>
      exact rnobOl_spec h
  · rw [if_neg hp] at h
    exact rnobOl_spec h

theorem rnobF_spec {s rep : List Char} {k : Nat} (h : rnobF s = some (rep, k)) :
    (rep = s.take k ∧ rep.getLast? = some '>' ∧ ∃ r, s = '<' :: r) ∨
    (rep = str "<br>" ∧ k = 1 ∧ ∃ r, s = '\n' :: r) := by
  unfold rnobF at h
  by_cases hp : (str "<pre><code>").isPrefixOf s = true
  · rw [if_pos hp] at h
    split at h
    case _ i hfs =>
      simp only [Option.some.injEq, Prod.mk.injEq] at h
      obtain ⟨hrep, hk⟩ := h
      obtain ⟨hfp, hfl⟩ := findSub_some _ _ hfs
      have hblk : s.take ((str "<pre><code>").length + i +
            (str "</code></pre>").length) =
          str "<pre><code>" ++ ((s.drop (str "<pre><code>").length).take i ++
            str "</code></pre>") ∧
          (s.take ((str "<pre><code>").length + i +
            (str "</code></pre>").length)).getLast? =
            (str "</code></pre>").getLast? :=
        take_block_last hp hfp hfl (by decide)
      refine Or.inl ⟨by rw [← hrep, ← hk], ?_, ?_⟩
      · rw [← hrep]
        rw [show (11 + i + 13 : Nat) =
          (str "<pre><code>").length + i + (str "</code></pre>").length from rfl]
        rw [hblk.2]
        decide
      · cases s with
        | nil => exact absurd hp (by decide)
        | cons c0 r0 =>
          refine ⟨r0, ?_⟩
          rw [List.isPrefixOf_iff_prefix] at hp
          rw [show (str "<pre><code>" : List Char) = '<' :: str "pre><code>" from by decide] at hp
          rw [List.cons_prefix_cons] at hp
          rw [← hp.1]
    case _ hfs =>
      exact rnobUl_spec h
  · rw [if_neg hp] at h
    exact rnobUl_spec h

/-- A `rnobF` match begins with `<` or a newline. -/
theorem rnobF_head : ∀ s r, rnobF s = some r →
    ∃ d, s.head? = some d ∧ (d = '<' || d = '\n') = true := by
  intro s r h
  obtain ⟨rep, k⟩ := r
  rcases rnobF_spec h with ⟨_, _, r, rfl⟩ | ⟨_, _, r, rfl⟩
  · exact ⟨'<', rfl, by decide⟩
  · exact ⟨'\n', rfl, by decide⟩

/-- The replacement of a `rnobF` match keeps the follow-character
invariant. -/
theorem rnobF_fb {c : Char} {L : List (List Char)}
    (hcgt : c ≠ '>') (hgt : ∀ l ∈ L, '>' ∉ l.dropLast)
    (hbr : fbChk c L (str "<br>") = true) :
    ∀ s rep k, fbChk c L s = true → rnobF s = some (rep, k) → 1 ≤ k →
      fbChk c L rep = true := by
  intro s rep k hfb h _
  rcases rnobF_spec h with ⟨hrep, hlast, _⟩ | ⟨hrep, _, _⟩
  · subst hrep
    refine fbChk_prefix_last_gt (v := s.drop k) hcgt hgt (s.take k) ?_ hlast
    rw [List.take_append_drop]
    exact hfb
  · rw [hrep]
    exact hbr

/-- The replacement of a `rnobF` match is token-sound and does not
increase a weight vanishing on `<br>`. -/
theorem rnobF_tlW {w : Tg → Int} (hbr0 : w Tg.brT = 0) :
    ∀ s rep k, fbTags s = true → rnobF s = some (rep, k) → 1 ≤ k →
      fbTags rep = true ∧ tlW w rep + tlW w (s.drop k) ≤ tlW w s := by
  intro s rep k hfb h hk
  have hfbrep : fbTags rep = true :=
    rnobF_fb (by decide) (by decide) (by decide) s rep k hfb h hk
  refine ⟨hfbrep, ?_⟩
  rcases rnobF_spec h with ⟨hrep, _, _⟩ | ⟨hrep, hk1, ⟨r, hs⟩⟩
  · subst hrep
    conv_rhs => rw [← List.take_append_drop k s]
    rw [tlW_append hfbrep]
  · rw [hrep, hk1, hs]
    have h1 : tlW w (str "<br>") = 0 := by
      unfold tlW
      rw [show tl (str "<br>") = [Tg.brT] from by decide]
      simp [hbr0]
    have h2 : tlW w ('\n' :: r) = tlW w r := by
      unfold tlW
      rw [tl_cons_ne (by decide)]
    rw [h1, h2, List.drop_succ_cons, List.drop_zero]
    omega

/-! ## Substring occurrence and the `<pre>`-weight -/

/-- `pat` occurs as a contiguous substring. -/
def hasSub (pat : List Char) : List Char → Bool
  | [] => pat.isEmpty
  | c :: rest => pat.isPrefixOf (c :: rest) || hasSub pat rest

/-- Number of positions at which `pat` occurs. -/
def occCount (pat : List Char) : List Char → Nat
  | [] => if pat.isEmpty then 1 else 0
  | c :: rest => (if pat.isPrefixOf (c :: rest) then 1 else 0) + occCount pat rest

/-- Weight selecting the `<pre>` opening token. -/
def wPre : Tg → Int
  | Tg.preO => 1
  | _ => 0

/-- Under the follow-character invariant, an occurrence of `c` followed by
`p` forces a continuation compatible with `p`. -/
theorem hasSub_fb {c : Char} {L : List (List Char)} {p : List Char} :
    ∀ s, fbChk c L s = true → hasSub (c :: p) s = true →
      ∃ l ∈ L, (l.isPrefixOf p || p.isPrefixOf l) = true := by
  intro s
  induction s with
  | nil =>
    intro _ habs
    cases habs
  | cons a rest ih =>
    intro h hsub
    rw [hasSub, Bool.or_eq_true] at hsub
    rcases hsub with hpre | hrec
    · rw [List.isPrefixOf_iff_prefix, List.cons_prefix_cons] at hpre
      obtain ⟨rfl, hp⟩ := hpre
      have h1 := (Bool.and_eq_true _ _).mp h |>.1
      rw [if_pos rfl, List.any_eq_true] at h1
      obtain ⟨l, hl, hlp⟩ := h1
      rw [List.isPrefixOf_iff_prefix] at hlp
      refine ⟨l, hl, ?_⟩
      rw [Bool.or_eq_true, List.isPrefixOf_iff_prefix, List.isPrefixOf_iff_prefix]
      exact (List.prefix_or_prefix_of_prefix hlp hp).imp id id
    · exact ih (fbChk_tail h) hrec

/-- No `<script` substring can survive the tag invariant: no renderer
token continuation is compatible with `script`. -/
theorem fbTags_no_script {s : List Char} (h : fbTags s = true) :
    hasSub (str "<script") s = false := by
  by_contra hc
  rw [Bool.not_eq_false] at hc
  rw [show (str "<script" : List Char) = '<' :: str "script" from by decide] at hc
  obtain ⟨l, hl, hor⟩ := hasSub_fb s h hc
  revert hor
  revert hl
  revert l
  decide

/-- A `<pre` substring under the tag invariant means a `<pre>` token is
present in the token sequence. -/
theorem hasSub_pre_mem_tl : ∀ s, fbTags s = true →
    hasSub (str "<pre") s = true → Tg.preO ∈ tl s := by
  intro s
  induction s with
  | nil => intro _ habs; cases habs
  | cons a rest ih =>
    intro h hsub
    rw [hasSub, Bool.or_eq_true] at hsub
    rcases hsub with hpre | hrec
    · rw [show (str "<pre" : List Char) = '<' :: str "pre" from by decide] at hpre
      rw [List.isPrefixOf_iff_prefix, List.cons_prefix_cons] at hpre
      obtain ⟨rfl, hp⟩ := hpre
      have h1 := (Bool.and_eq_true _ _).mp h |>.1
      rw [if_pos rfl, List.any_eq_true] at h1
      obtain ⟨l, hl, hlp⟩ := h1
      rw [List.isPrefixOf_iff_prefix] at hlp
      have htot := List.prefix_or_prefix_of_prefix hlp hp
      have hfact1 : ∀ l ∈ tagTails, l.isPrefixOf (str "pre") = false := by decide
      have hfact2 : ∀ l ∈ tagTails, (str "pre").isPrefixOf l = true →
          l = str "pre>" := by decide
      have hlpre : l = str "pre>" := by
        rcases htot with hcase | hcase
        · exfalso
          rw [← List.isPrefixOf_iff_prefix] at hcase
          rw [hfact1 l hl] at hcase
          cases hcase
        · rw [← List.isPrefixOf_iff_prefix] at hcase
          exact hfact2 l hl hcase
      subst hlpre
      obtain ⟨z, hz⟩ := hlp
      rw [tl_cons_lt]
      rw [← hz]
      have hft : findTag ('<' :: (str "pre>" ++ z)) = some Tg.preO := by
        unfold findTag
        have hp0 : (tagStr Tg.preO).isPrefixOf ('<' :: (str "pre>" ++ z)) = true := by
          rw [show tagStr Tg.preO = '<' :: str "pre>" from by decide]
          rw [List.isPrefixOf_iff_prefix, List.cons_prefix_cons]
          exact ⟨rfl, List.prefix_append _ _⟩
        rw [show allTags = Tg.preO :: allTags.tail from rfl]
        exact List.find?_cons_of_pos _ hp0
      rw [hft]
      exact List.mem_append_left _ (List.mem_singleton.mpr rfl)
    · have hrest : fbTags rest = true := fbChk_tail h
      have hmem := ih hrest hrec
      by_cases ha : a = '<'
      · subst ha
        rw [tl_cons_lt]
        exact List.mem_append_right _ hmem
      · rw [tl_cons_ne ha]
        exact hmem

/-- A present `<pre>` token forces a positive `wPre` weight. -/
theorem mem_tl_wPre_pos {s : List Char} (h : Tg.preO ∈ tl s) :
    1 ≤ tlW wPre s := by
  unfold tlW
  have hmem : (1 : Int) ∈ (tl s).map wPre := by
    rw [List.mem_map]
    exact ⟨Tg.preO, h, rfl⟩
  refine le_trans (le_of_eq rfl) (List.single_le_sum ?_ 1 hmem)
  intro x hx
  rw [List.mem_map] at hx
  obtain ⟨t, _, rfl⟩ := hx
  cases t <;> decide

/-! ## Whole-pipeline invariants -/

theorem pairPass_fb {c : Char} {L : List (List Char)}
    {delim opn cls : List Char} {dchar : Char}
    (hdne : delim ≠ []) (hdall : ∀ x ∈ delim, x = dchar)
    (hdL : ∀ l ∈ L, dchar ∉ l)
    (hopn : fbChk c L opn = true) (hcls : fbChk c L cls = true) :
    ∀ s, fbChk c L s = true →
      fbChk c L (scanRep (pairF delim opn cls dchar) s) = true := by
  intro s h
  refine scanRep_fb c L _ (fun x => x = dchar) ?_ ?_
    (pairF_fb hdne hdL hdall hopn hcls) s h
  · intro s' r h'
    obtain ⟨d, h1, h2⟩ := pairF_head hdne hdall s' r h'
    exact ⟨d, h1, by rw [h2]; simp⟩
  · intro l hl x hx
    by_cases hq : x = dchar
    · exact absurd (hq ▸ hx) (hdL l hl)
    · simp [hq]

theorem pairPass_tlW {w : Tg → Int} {delim opn cls : List Char} {dchar : Char}
    (hdne : delim ≠ []) (hdall : ∀ x ∈ delim, x = dchar) (hdlt : dchar ≠ '<')
    (hdTag : ∀ l ∈ tagTails, dchar ∉ l)
    (hopnT : fbTags opn = true) (hclsT : fbTags cls = true)
    (hsum : tlW w opn + tlW w cls = 0) :
    ∀ s, fbTags s = true →
      tlW w (scanRep (pairF delim opn cls dchar) s) ≤ tlW w s := by
  intro s h
  refine scanRep_tlW_le w _ (fun x => x = dchar) ?_ ?_
    (pairF_tlW hdne hdall hdlt hdTag hopnT hclsT hsum) s h
  · intro s' r h'
    obtain ⟨d, h1, h2⟩ := pairF_head hdne hdall s' r h'
    exact ⟨d, h1, by rw [h2]; simp⟩
  · intro l hl x hx
    by_cases hq : x = dchar
    · exact absurd (hq ▸ hx) (hdTag l hl)
    · simp [hq]

/-- Every `<` of the rendered output begins a complete renderer markup
token. -/
theorem parseMarkdown_fbTags (text : List Char) :
    fbTags (parseMarkdown text) = true := by
  have h0 : fbTags (escapeHtml text) = true := escapeHtml_fbTags text
  have h1 : fbTags (fencePass (escapeHtml text)) = true := by
    refine scanRep_fb '<' tagTails fenceF (fun d => d = bt) ?_ (by decide)
      (fenceF_fb (by decide) tagTails_last_not_ws (by decide) (by decide)) _ h0
    intro s' r h'
    obtain ⟨d, hh1, hh2⟩ := fenceF_head s' r h'
    exact ⟨d, hh1, by rw [hh2]; decide⟩
  have h2 : fbTags (inlineCodePass (fencePass (escapeHtml text))) = true :=
    pairPass_fb (by decide) (by decide) (by decide) (by decide) (by decide) _ h1
  have h3 : fbTags (boldStarPass (inlineCodePass (fencePass
      (escapeHtml text)))) = true :=
    pairPass_fb (by decide) (by decide) (by decide) (by decide) (by decide) _ h2
  have h4 : fbTags (boldUnderPass (boldStarPass (inlineCodePass (fencePass
      (escapeHtml text))))) = true :=
    pairPass_fb (by decide) (by decide) (by decide) (by decide) (by decide) _ h3
  have h5 : fbTags (emStarPass (boldUnderPass (boldStarPass (inlineCodePass
      (fencePass (escapeHtml text)))))) = true :=
    pairPass_fb (by decide) (by decide) (by decide) (by decide) (by decide) _ h4
  have h6 : fbTags (emUnderPass (emStarPass (boldUnderPass (boldStarPass
      (inlineCodePass (fencePass (escapeHtml text))))))) = true :=
    pairPass_fb (by decide) (by decide) (by decide) (by decide) (by decide) _ h5
  have h7 : fbTags (h3Pass (emUnderPass (emStarPass (boldUnderPass (boldStarPass
      (inlineCodePass (fencePass (escapeHtml text)))))))) = true :=
    mapSegsF_fb (by decide) (by decide) _ (hSeg_fb (by decide) (by decide)) _ _ h6
  have h8 : fbTags (h2Pass (h3Pass (emUnderPass (emStarPass (boldUnderPass
      (boldStarPass (inlineCodePass (fencePass (escapeHtml text))))))))) = true :=
    mapSegsF_fb (by decide) (by decide) _ (hSeg_fb (by decide) (by decide)) _ _ h7
  have h9 : fbTags (h1Pass (h2Pass (h3Pass (emUnderPass (emStarPass (boldUnderPass
      (boldStarPass (inlineCodePass (fencePass (escapeHtml text)))))))))) = true :=
    mapSegsF_fb (by decide) (by decide) _ (hSeg_fb (by decide) (by decide)) _ _ h8
  have h10 : fbTags (linksPass (h1Pass (h2Pass (h3Pass (emUnderPass (emStarPass
      (boldUnderPass (boldStarPass (inlineCodePass (fencePass
      (escapeHtml text))))))))))) = true := by
    refine scanRep_fb '<' tagTails linkF (fun d => d = '[') ?_ (by decide)
      (linkF_fb (by decide) (by decide) tagTails_last_not_ws (by decide)
        (by decide) (by decide) (by decide)) _ h9
    intro s' r h'
    obtain ⟨d, hh1, hh2⟩ := linkF_head s' r h'
    exact ⟨d, hh1, by rw [hh2]; decide⟩
  have h11 : fbTags (listPass (linksPass (h1Pass (h2Pass (h3Pass (emUnderPass
      (emStarPass (boldUnderPass (boldStarPass (inlineCodePass (fencePass
      (escapeHtml text)))))))))))) = true :=
    listPass_fb (by decide) (by decide) (by decide) (by decide) (by decide)
      (by decide) (by decide) (by decide) _ h10
  have h12 : fbTags (bqPass (listPass (linksPass (h1Pass (h2Pass (h3Pass
      (emUnderPass (emStarPass (boldUnderPass (boldStarPass (inlineCodePass
      (fencePass (escapeHtml text))))))))))))) = true :=
    mapSegsF_fb (by decide) (by decide) _ (bqSeg_fb (by decide) (by decide)) _ _ h11
  have h13 : fbTags (rnobPass (bqPass (listPass (linksPass (h1Pass (h2Pass
      (h3Pass (emUnderPass (emStarPass (boldUnderPass (boldStarPass
      (inlineCodePass (fencePass (escapeHtml text)))))))))))))) = true := by
    refine scanRep_fb '<' tagTails rnobF (fun d => d = '<' || d = '\n') ?_
      (by decide) (rnobF_fb (by decide) (by decide) (by decide)) _ h12
    intro s' r h'
    obtain ⟨d, hh1, hh2⟩ := rnobF_head s' r h'
    exact ⟨d, hh1, hh2⟩
  exact h13

/-- Every `&` of the rendered output begins one of the five escape
entities. -/
theorem parseMarkdown_fbEnts (text : List Char) :
    fbEnts (parseMarkdown text) = true := by
  have h0 : fbEnts (escapeHtml text) = true := escapeHtml_fbEnts text
  have h1 : fbEnts (fencePass (escapeHtml text)) = true := by
    refine scanRep_fb '&' entTails fenceF (fun d => d = bt) ?_ (by decide)
      (fenceF_fb (by decide) (by decide) (by decide) (by decide)) _ h0
    intro s' r h'
    obtain ⟨d, hh1, hh2⟩ := fenceF_head s' r h'
    exact ⟨d, hh1, by rw [hh2]; decide⟩
  have h2 : fbEnts (inlineCodePass (fencePass (escapeHtml text))) = true :=
    pairPass_fb (by decide) (by decide) (by decide) (by decide) (by decide) _ h1
  have h3 : fbEnts (boldStarPass (inlineCodePass (fencePass
      (escapeHtml text)))) = true :=
    pairPass_fb (by decide) (by decide) (by decide) (by decide) (by decide) _ h2
  have h4 : fbEnts (boldUnderPass (boldStarPass (inlineCodePass (fencePass
      (escapeHtml text))))) = true :=
    pairPass_fb (by decide) (by decide) (by decide) (by decide) (by decide) _ h3
  have h5 : fbEnts (emStarPass (boldUnderPass (boldStarPass (inlineCodePass
      (fencePass (escapeHtml text)))))) = true :=
    pairPass_fb (by decide) (by decide) (by decide) (by decide) (by decide) _ h4
  have h6 : fbEnts (emUnderPass (emStarPass (boldUnderPass (boldStarPass
      (inlineCodePass (fencePass (escapeHtml text))))))) = true :=
    pairPass_fb (by decide) (by decide) (by decide) (by decide) (by decide) _ h5
  have h7 : fbEnts (h3Pass (emUnderPass (emStarPass (boldUnderPass (boldStarPass
      (inlineCodePass (fencePass (escapeHtml text)))))))) = true :=
    mapSegsF_fb (by decide) (by decide) _ (hSeg_fb (by decide) (by decide)) _ _ h6
  have h8 : fbEnts (h2Pass (h3Pass (emUnderPass (emStarPass (boldUnderPass
      (boldStarPass (inlineCodePass (fencePass (escapeHtml text))))))))) = true :=
    mapSegsF_fb (by decide) (by decide) _ (hSeg_fb (by decide) (by decide)) _ _ h7
  have h9 : fbEnts (h1Pass (h2Pass (h3Pass (emUnderPass (emStarPass (boldUnderPass
      (boldStarPass (inlineCodePass (fencePass (escapeHtml text)))))))))) = true :=
    mapSegsF_fb (by decide) (by decide) _ (hSeg_fb (by decide) (by decide)) _ _ h8
  have h10 : fbEnts (linksPass (h1Pass (h2Pass (h3Pass (emUnderPass (emStarPass
      (boldUnderPass (boldStarPass (inlineCodePass (fencePass
      (escapeHtml text))))))))))) = true := by
    refine scanRep_fb '&' entTails linkF (fun d => d = '[') ?_ (by decide)
      (linkF_fb (by decide) (by decide) (by decide) (by decide)
        (by decide) (by decide) (by decide)) _ h9
    intro s' r h'
    obtain ⟨d, hh1, hh2⟩ := linkF_head s' r h'
    exact ⟨d, hh1, by rw [hh2]; decide⟩
  have h11 : fbEnts (listPass (linksPass (h1Pass (h2Pass (h3Pass (emUnderPass
      (emStarPass (boldUnderPass (boldStarPass (inlineCodePass (fencePass
      (escapeHtml text)))))))))))) = true :=
    listPass_fb (by decide) (by decide) (by decide) (by decide) (by decide)
      (by decide) (by decide) (by decide) _ h10
  have h12 : fbEnts (bqPass (listPass (linksPass (h1Pass (h2Pass (h3Pass
      (emUnderPass (emStarPass (boldUnderPass (boldStarPass (inlineCodePass
      (fencePass (escapeHtml text))))))))))))) = true :=
    mapSegsF_fb (by decide) (by decide) _ (bqSeg_fb (by decide) (by decide)) _ _ h11
  have h13 : fbEnts (rnobPass (bqPass (listPass (linksPass (h1Pass (h2Pass
      (h3Pass (emUnderPass (emStarPass (boldUnderPass (boldStarPass
      (inlineCodePass (fencePass (escapeHtml text)))))))))))))) = true := by
    refine scanRep_fb '&' entTails rnobF (fun d => d = '<' || d = '\n') ?_
      (by decide) (rnobF_fb (by decide) (by decide) (by decide)) _ h12
    intro s' r h'
    obtain ⟨d, hh1, hh2⟩ := rnobF_head s' r h'
    exact ⟨d, hh1, hh2⟩
  exact h13

/-- When the fence pass finds no complete fence, no stage can ever create
a `<pre>` token: the `wPre` weight of the output is non-positive. -/
theorem parseMarkdown_tlW_pre (text : List Char)
    (hfix : fencePass (escapeHtml text) = escapeHtml text) :
    tlW wPre (parseMarkdown text) ≤ 0 := by
  have hnn : ∀ t, 0 ≤ wPre t := by intro t; cases t <;> decide
  have h0 : fbTags (escapeHtml text) = true := escapeHtml_fbTags text
  have h1 : fbTags (fencePass (escapeHtml text)) = true := by
    rw [hfix]; exact h0
  have h2 : fbTags (inlineCodePass (fencePass (escapeHtml text))) = true :=
    pairPass_fb (by decide) (by decide) (by decide) (by decide) (by decide) _ h1
  have h3 : fbTags (boldStarPass (inlineCodePass (fencePass
      (escapeHtml text)))) = true :=
    pairPass_fb (by decide) (by decide) (by decide) (by decide) (by decide) _ h2
  have h4 : fbTags (boldUnderPass (boldStarPass (inlineCodePass (fencePass
      (escapeHtml text))))) = true :=
    pairPass_fb (by decide) (by decide) (by decide) (by decide) (by decide) _ h3
  have h5 : fbTags (emStarPass (boldUnderPass (boldStarPass (inlineCodePass
      (fencePass (escapeHtml text)))))) = true :=
    pairPass_fb (by decide) (by decide) (by decide) (by decide) (by decide) _ h4
  have h6 : fbTags (emUnderPass (emStarPass (boldUnderPass (boldStarPass
      (inlineCodePass (fencePass (escapeHtml text))))))) = true :=
    pairPass_fb (by decide) (by decide) (by decide) (by decide) (by decide) _ h5
  have h7 : fbTags (h3Pass (emUnderPass (emStarPass (boldUnderPass (boldStarPass
      (inlineCodePass (fencePass (escapeHtml text)))))))) = true :=
    mapSegsF_fb (by decide) (by decide) _ (hSeg_fb (by decide) (by decide)) _ _ h6
  have h8 : fbTags (h2Pass (h3Pass (emUnderPass (emStarPass (boldUnderPass
      (boldStarPass (inlineCodePass (fencePass (escapeHtml text))))))))) = true :=
    mapSegsF_fb (by decide) (by decide) _ (hSeg_fb (by decide) (by decide)) _ _ h7
  have h9 : fbTags (h1Pass (h2Pass (h3Pass (emUnderPass (emStarPass (boldUnderPass
      (boldStarPass (inlineCodePass (fencePass (escapeHtml text)))))))))) = true :=
    mapSegsF_fb (by decide) (by decide) _ (hSeg_fb (by decide) (by decide)) _ _ h8
  have h10 : fbTags (linksPass (h1Pass (h2Pass (h3Pass (emUnderPass (emStarPass
      (boldUnderPass (boldStarPass (inlineCodePass (fencePass
      (escapeHtml text))))))))))) = true := by
    refine scanRep_fb '<' tagTails linkF (fun d => d = '[') ?_ (by decide)
      (linkF_fb (by decide) (by decide) tagTails_last_not_ws (by decide)
        (by decide) (by decide) (by decide)) _ h9
    intro s' r h'
    obtain ⟨d, hh1, hh2⟩ := linkF_head s' r h'
    exact ⟨d, hh1, by rw [hh2]; decide⟩
  have h11 : fbTags (listPass (linksPass (h1Pass (h2Pass (h3Pass (emUnderPass
      (emStarPass (boldUnderPass (boldStarPass (inlineCodePass (fencePass
      (escapeHtml text)))))))))))) = true :=
    listPass_fb (by decide) (by decide) (by decide) (by decide) (by decide)
      (by decide) (by decide) (by decide) _ h10
  have h12 : fbTags (bqPass (listPass (linksPass (h1Pass (h2Pass (h3Pass
      (emUnderPass (emStarPass (boldUnderPass (boldStarPass (inlineCodePass
      (fencePass (escapeHtml text))))))))))))) = true :=
    mapSegsF_fb (by decide) (by decide) _ (bqSeg_fb (by decide) (by decide)) _ _ h11
  have w1 : tlW wPre (fencePass (escapeHtml text)) = 0 := by
    rw [hfix]; exact escapeHtml_tlW wPre text
  have w2 : tlW wPre (inlineCodePass (fencePass (escapeHtml text))) ≤
      tlW wPre (fencePass (escapeHtml text)) :=
    pairPass_tlW (by decide) (by decide) (by decide) (by decide) (by decide)
      (by decide) (by decide) _ h1
  have w3 : tlW wPre (boldStarPass (inlineCodePass (fencePass
      (escapeHtml text)))) ≤
      tlW wPre (inlineCodePass (fencePass (escapeHtml text))) :=
    pairPass_tlW (by decide) (by decide) (by decide) (by decide) (by decide)
      (by decide) (by decide) _ h2
  have w4 : tlW wPre (boldUnderPass (boldStarPass (inlineCodePass (fencePass
      (escapeHtml text))))) ≤
      tlW wPre (boldStarPass (inlineCodePass (fencePass (escapeHtml text)))) :=
    pairPass_tlW (by decide) (by decide) (by decide) (by decide) (by decide)
      (by decide) (by decide) _ h3
  have w5 : tlW wPre (emStarPass (boldUnderPass (boldStarPass (inlineCodePass
      (fencePass (escapeHtml text)))))) ≤
      tlW wPre (boldUnderPass (boldStarPass (inlineCodePass (fencePass
      (escapeHtml text))))) :=
    pairPass_tlW (by decide) (by decide) (by decide) (by decide) (by decide)
      (by decide) (by decide) _ h4
  have w6 : tlW wPre (emUnderPass (emStarPass (boldUnderPass (boldStarPass
      (inlineCodePass (fencePass (escapeHtml text))))))) ≤
      tlW wPre (emStarPass (boldUnderPass (boldStarPass (inlineCodePass
      (fencePass (escapeHtml text)))))) :=
    pairPass_tlW (by decide) (by decide) (by decide) (by decide) (by decide)
      (by decide) (by decide) _ h5
  have w7 : tlW wPre (h3Pass (emUnderPass (emStarPass (boldUnderPass
      (boldStarPass (inlineCodePass (fencePass (escapeHtml text)))))))) ≤
      tlW wPre (emUnderPass (emStarPass (boldUnderPass (boldStarPass
      (inlineCodePass (fencePass (escapeHtml text))))))) :=
    mapSegsF_tlW _ (hSeg_fb (by decide) (by decide))
      (hSeg_tlW (by decide) (by decide) (by decide)) _ _ h6
  have w8 : tlW wPre (h2Pass (h3Pass (emUnderPass (emStarPass (boldUnderPass
      (boldStarPass (inlineCodePass (fencePass (escapeHtml text))))))))) ≤
      tlW wPre (h3Pass (emUnderPass (emStarPass (boldUnderPass (boldStarPass
      (inlineCodePass (fencePass (escapeHtml text)))))))) :=
    mapSegsF_tlW _ (hSeg_fb (by decide) (by decide))
      (hSeg_tlW (by decide) (by decide) (by decide)) _ _ h7
  have w9 : tlW wPre (h1Pass (h2Pass (h3Pass (emUnderPass (emStarPass
      (boldUnderPass (boldStarPass (inlineCodePass (fencePass
      (escapeHtml text)))))))))) ≤
      tlW wPre (h2Pass (h3Pass (emUnderPass (emStarPass (boldUnderPass
      (boldStarPass (inlineCodePass (fencePass (escapeHtml text))))))))) :=
    mapSegsF_tlW _ (hSeg_fb (by decide) (by decide))
      (hSeg_tlW (by decide) (by decide) (by decide)) _ _ h8
  have w10 : tlW wPre (linksPass (h1Pass (h2Pass (h3Pass (emUnderPass
      (emStarPass (boldUnderPass (boldStarPass (inlineCodePass (fencePass
      (escapeHtml text))))))))))) ≤
      tlW wPre (h1Pass (h2Pass (h3Pass (emUnderPass (emStarPass (boldUnderPass
      (boldStarPass (inlineCodePass (fencePass (escapeHtml text)))))))))) := by
    refine scanRep_tlW_le wPre linkF (fun d => d = '[') ?_ (by decide)
      (linkF_tlW (by decide) hnn) _ h9
    intro s' r h'
    obtain ⟨d, hh1, hh2⟩ := linkF_head s' r h'
    exact ⟨d, hh1, by rw [hh2]; decide⟩
  have w11 : tlW wPre (listPass (linksPass (h1Pass (h2Pass (h3Pass (emUnderPass
      (emStarPass (boldUnderPass (boldStarPass (inlineCodePass (fencePass
      (escapeHtml text)))))))))))) ≤
      tlW wPre (linksPass (h1Pass (h2Pass (h3Pass (emUnderPass (emStarPass
      (boldUnderPass (boldStarPass (inlineCodePass (fencePass
      (escapeHtml text))))))))))) :=
    listPass_tlW (by decide) _ h10
  have w12 : tlW wPre (bqPass (listPass (linksPass (h1Pass (h2Pass (h3Pass
      (emUnderPass (emStarPass (boldUnderPass (boldStarPass (inlineCodePass
      (fencePass (escapeHtml text))))))))))))) ≤
      tlW wPre (listPass (linksPass (h1Pass (h2Pass (h3Pass (emUnderPass
      (emStarPass (boldUnderPass (boldStarPass (inlineCodePass (fencePass
      (escapeHtml text)))))))))))) :=
    mapSegsF_tlW _ (bqSeg_fb (by decide) (by decide))
      (bqSeg_tlW (by decide)) _ _ h11
  have w13 : tlW wPre (rnobPass (bqPass (listPass (linksPass (h1Pass (h2Pass
      (h3Pass (emUnderPass (emStarPass (boldUnderPass (boldStarPass
      (inlineCodePass (fencePass (escapeHtml text)))))))))))))) ≤
      tlW wPre (bqPass (listPass (linksPass (h1Pass (h2Pass (h3Pass
      (emUnderPass (emStarPass (boldUnderPass (boldStarPass (inlineCodePass
      (fencePass (escapeHtml text))))))))))))) := by
    refine scanRep_tlW_le wPre rnobF (fun d => d = '<' || d = '\n') ?_
      (by decide) (rnobF_tlW (by decide)) _ h12
    intro s' r h'
    obtain ⟨d, hh1, hh2⟩ := rnobF_head s' r h'
    exact ⟨d, hh1, hh2⟩
  show tlW wPre (rnobPass (bqPass (listPass (linksPass (h1Pass (h2Pass
      (h3Pass (emUnderPass (emStarPass (boldUnderPass (boldStarPass
      (inlineCodePass (fencePass (escapeHtml text)))))))))))))) ≤ 0
  omega

/-! ## C4 and C6 -/

/-- C4.  The renderer escapes every HTML metacharacter before any markdown
substitution: the escaped text contains no raw `<`, `>`, `"` or `'` and
every `&` begins an escape entity; in the final output every `<` begins a
renderer-inserted markup token and every `&` an escape entity, so no
`<script` substring can ever occur; the claim's own example renders as
stated. -/
theorem C4_metacharacters_escaped (text : List Char) :
    ('<' ∉ escapeHtml text ∧ '>' ∉ escapeHtml text ∧ '"' ∉ escapeHtml text ∧
      apos ∉ escapeHtml text ∧ fbEnts (escapeHtml text) = true) ∧
    fbTags (parseMarkdown text) = true ∧ fbEnts (parseMarkdown text) = true ∧
    hasSub (str "<script") (parseMarkdown text) = false ∧
    parseMarkdown (str "**bold** and " ++ [bt] ++ str "code" ++ [bt]) =
      str "<strong>bold</strong> and <code>code</code>" :=
  ⟨⟨escapeHtml_no_lt text, escapeHtml_no_gt text, escapeHtml_no_quot text,
    escapeHtml_no_apos text, escapeHtml_fbEnts text⟩,
   parseMarkdown_fbTags text, parseMarkdown_fbEnts text,
   fbTags_no_script (parseMarkdown_fbTags text), by decide⟩

/-- The discovered input refuting C6's balance clause: a link whose text
holds an opening backtick and whose target holds the closing one, before
an unterminated fence. -/
def c6inp : List Char :=
  '[' :: 't' :: bt :: ']' :: '(' :: 'a' :: ':' :: bt :: 'b' :: ')' :: 'c' ::
    '\n' :: bt :: bt :: bt :: '\n' :: 'x' :: []

/-- A minimal input with an unterminated fence for the amended C6. -/
def c6winp : List Char := bt :: bt :: bt :: '\n' :: 'x' :: []

/-- Counterexample to C6 as stated.  The input contains an opening fence
marker with no matching closing marker (the fence pass matches nothing),
yet the rendered output opens a `<code>` tag it never closes: the output
is not balanced. -/
theorem C6_counterexample :
    hasSub tks c6inp = true ∧
    fencePass (escapeHtml c6inp) = escapeHtml c6inp ∧
    occCount (str "<code>") (parseMarkdown c6inp) = 1 ∧
    occCount (str "</code>") (parseMarkdown c6inp) = 0 := by decide

/-- C6 (amended).  When the input contains a fence marker but the fence
pass finds no complete fence, the render is total, leaks no `<pre` into
the output, and truncates no markup token: every `<` begins a complete
renderer tag. -/
theorem C6_unterminated_fence_no_pre (text : List Char)
    (hmark : hasSub tks text = true)
    (hnofence : fencePass (escapeHtml text) = escapeHtml text) :
    hasSub (str "<pre") (parseMarkdown text) = false ∧
    fbTags (parseMarkdown text) = true := by
  refine ⟨?_, parseMarkdown_fbTags text⟩
  by_contra hc
  rw [Bool.not_eq_false] at hc
  have hmem := hasSub_pre_mem_tl _ (parseMarkdown_fbTags text) hc
  have hpos := mem_tl_wPre_pos hmem
  have hle := parseMarkdown_tlW_pre text hnofence
  omega

/-- Witness for the amended C6 at a concrete unterminated fence. -/
theorem C6_unterminated_fence_no_pre_witness :
    hasSub tks c6winp = true ∧
    fencePass (escapeHtml c6winp) = escapeHtml c6winp ∧
    hasSub (str "<pre") (parseMarkdown c6winp) = false ∧
    fbTags (parseMarkdown c6winp) = true :=
  ⟨by decide, by decide,
   (C6_unterminated_fence_no_pre c6winp (by decide) (by decide)).1,
   (C6_unterminated_fence_no_pre c6winp (by decide) (by decide)).2⟩
